import Mathlib

/-!
# Verification of the `wrequest` HTTP request/response library

Shallow embedding of `src/lib.rs` (crate `wrequest`): the case-insensitive
header map, the case-sensitive key/value map used for request params and
cookies, the message body model, the JSON body codec, and the `Request` /
`Response` aggregates.  Hash maps are modelled as association lists: the
underlying Rust maps (`std::collections::HashMap` and
`case_insensitive_hashmap::CaseInsensitiveHashMap`, a `HashMap` keyed by
`unicase::UniCase<String>`) have unordered iteration, so only
order-insensitive facts are claimed about iteration.  `HashMap::insert`
updates the value of an existing entry but, per its documentation, does not
update the stored key; the association-list model mirrors this by keeping
the stored key when replacing a value.
-/

namespace Wrequest

/-! ## ASCII case folding (model of `unicase::UniCase` key identity) -/

/-- Fold an ASCII upper-case letter to lower case, leaving every other
character unchanged.  Models the case-insensitive key identity of
`unicase::UniCase` restricted to ASCII. -/
def asciiFoldChar (c : Char) : Char :=
  if 'A' ≤ c ∧ c ≤ 'Z' then Char.ofNat (c.toNat + 32) else c

/-- ASCII case folding of a string. -/
def asciiFold (s : String) : String :=
  ⟨s.data.map asciiFoldChar⟩

/-! ## HeaderMap (src/lib.rs lines 151-234)

`HeaderMap` wraps a `CaseInsensitiveHashMap<String>`, i.e. a
`HashMap<UniCase<String>, String>`.  We model it as an association list of
`(stored key, value)` pairs where the key identity is `asciiFold`. -/

/-- Entry list model of a `HashMap` keyed by case-insensitive strings. -/
structure HeaderMap where
  entries : List (String × String)
deriving DecidableEq

namespace HeaderMap

/-- `HeaderMap::new` (src/lib.rs line 158). -/
def new : HeaderMap := ⟨[]⟩

/-- First value stored under the case-insensitive identity of `key`, if any.
Models `HashMap` lookup through `UniCase` equality. -/
def findFold (key : String) : List (String × String) → Option String
  | [] => none
  | (k, v) :: rest => if asciiFold k = asciiFold key then some v else findFold key rest

/-- `HeaderMap::contains_key` (src/lib.rs lines 172-177): case-insensitive
existence check. -/
def contains_key (m : HeaderMap) (key : String) : Bool :=
  m.entries.any (fun p => asciiFold p.1 = asciiFold key)

/-- `HeaderMap::get` (src/lib.rs lines 180-182): case-insensitive lookup. -/
def get (m : HeaderMap) (key : String) : Option String :=
  findFold key m.entries

/-- Value update of `HashMap::insert` under `UniCase` identity: replace the
value at the first entry whose key folds equal (the stored key is kept, as
`HashMap::insert` does not update an existing key), else append a fresh
entry. -/
def insertEntries (key value : String) : List (String × String) → List (String × String)
  | [] => [(key, value)]
  | (k, v) :: rest =>
    if asciiFold k = asciiFold key then (k, value) :: rest
    else (k, v) :: insertEntries key value rest

/-- `HeaderMap::insert` (src/lib.rs lines 165-169): stores `value` under the
case-insensitive identity of `key`; the returned `Bool` models
`self.map.insert(..).is_some()`, i.e. whether an entry with that identity
already existed. -/
def insert (m : HeaderMap) (key value : String) : HeaderMap × Bool :=
  (⟨insertEntries key value m.entries⟩, m.contains_key key)

/-- `HeaderMap::iter` (src/lib.rs lines 185-189): the entries as
`(stored key, value)` pairs (iteration order of the underlying hash map is
unspecified; the list order is one admissible order). -/
def iter (m : HeaderMap) : List (String × String) :=
  m.entries

/-- A sequence of `insert` calls, in order. -/
def applyInserts (m : HeaderMap) (ops : List (String × String)) : HeaderMap :=
  ops.foldl (fun acc p => (acc.insert p.1 p.2).1) m

end HeaderMap

/-- `impl From<Vec<(String, String)>> for HeaderMap` (src/lib.rs lines
192-207): repeatedly `pop`s the vector (taking pairs from the END first) and
inserts each popped pair, i.e. the pairs are inserted in reverse order. -/
def headerMapFromOwnedVec (l : List (String × String)) : HeaderMap :=
  HeaderMap.applyInserts HeaderMap.new l.reverse

/-- `impl From<&Vec<(&str, &str)>> for HeaderMap` (src/lib.rs lines
209-218): iterates the vector front to back and inserts each pair. -/
def headerMapFromRefVec (l : List (String × String)) : HeaderMap :=
  HeaderMap.applyInserts HeaderMap.new l

/-! ## KeyValueMap (src/lib.rs lines 237-272)

Wraps a plain `HashMap<String, String>`: exact (case-sensitive) keys. -/

/-- Entry list model of `HashMap<String, String>`. -/
structure KeyValueMap where
  entries : List (String × String)
deriving DecidableEq

namespace KeyValueMap

/-- `KeyValueMap::new` (src/lib.rs line 244). -/
def new : KeyValueMap := ⟨[]⟩

/-- First value stored under exactly `key`, if any. -/
def findExact (key : String) : List (String × String) → Option String
  | [] => none
  | (k, v) :: rest => if k = key then some v else findExact key rest

/-- `KeyValueMap::contains_key` (src/lib.rs lines 262-264). -/
def contains_key (m : KeyValueMap) (key : String) : Bool :=
  m.entries.any (fun p => p.1 = key)

/-- `KeyValueMap::get` (src/lib.rs lines 257-259): exact-key lookup. -/
def get (m : KeyValueMap) (key : String) : Option String :=
  findExact key m.entries

/-- Value update of `HashMap::insert` with exact keys. -/
def insertEntries (key value : String) : List (String × String) → List (String × String)
  | [] => [(key, value)]
  | (k, v) :: rest =>
    if k = key then (k, value) :: rest
    else (k, v) :: insertEntries key value rest

/-- `KeyValueMap::insert` (src/lib.rs lines 250-254); the returned `Bool`
models `self.map.insert(..).is_some()`. -/
def insert (m : KeyValueMap) (key value : String) : KeyValueMap × Bool :=
  (⟨insertEntries key value m.entries⟩, m.contains_key key)

/-- `KeyValueMap::iter` (src/lib.rs lines 267-271). -/
def iter (m : KeyValueMap) : List (String × String) :=
  m.entries

end KeyValueMap

/-! ## HTTP method and message body (src/lib.rs lines 109-149) -/

/-- `HttpMethod` (src/lib.rs line 111). -/
inductive HttpMethod where
  | GET | HEAD | POST | PUT | DELETE | CONNECT | OPTIONS | TRACE | PATCH
deriving DecidableEq

/-- `MessageBody` (src/lib.rs lines 132-137); bytes are modelled as natural
numbers below 256. -/
inductive MessageBody where
  | none
  | single (data : List Nat)
  | multiPart
deriving DecidableEq

/-- `MessageBody::is_none` (src/lib.rs lines 140-142). -/
def MessageBody.is_none : MessageBody → Bool
  | .none => true
  | _ => false

/-- `MessageBody::is_single` (src/lib.rs lines 143-145). -/
def MessageBody.is_single : MessageBody → Bool
  | .single _ => true
  | _ => false

/-- `MessageBody::is_multipart` (src/lib.rs lines 146-148). -/
def MessageBody.is_multipart : MessageBody → Bool
  | .multiPart => true
  | _ => false

/-! ## JSON collaborator model

The crate delegates JSON parsing and serialization to the external `json`
crate (`json::JsonValue`, `JsonValue::pretty`, `json::parse`).  Modelled
from the spec: "JSON text parsing/serialization (delegated to a JSON-value
collaborator: `parse(bytes) -> JsonValue | error`,
`JsonValue.prettyPrint(indent) -> string`)".  Numbers are modelled as
integers: floating-point numerals are outside the shallow embedding.
Unicode escape sequences denoting surrogate pairs are not modelled (the
pretty printer never emits them). -/

mutual
/-- Modelled from the spec: the JSON collaborator's value type (`json::JsonValue`),
with numbers restricted to integers. -/
inductive JsonValue where
  | null
  | bool (b : Bool)
  | num (n : Int)
  | str (s : List Char)
  | arr (a : JsonArr)
  | obj (o : JsonObj)
/-- A JSON array: list of values. -/
inductive JsonArr where
  | nil
  | cons (hd : JsonValue) (tl : JsonArr)
/-- A JSON object: ordered association list of string keys and values
(`json::object::Object` iterates in insertion order and keeps keys unique). -/
inductive JsonObj where
  | nil
  | cons (key : List Char) (val : JsonValue) (tl : JsonObj)
end

deriving instance DecidableEq for JsonValue, JsonArr, JsonObj

/-- Keys of a JSON object, in order. -/
def objKeys : JsonObj → List (List Char)
  | .nil => []
  | .cons k _ t => k :: objKeys t

/-- Whether a JSON object has an entry with exactly key `k`. -/
def objMem (k : List Char) : JsonObj → Bool
  | .nil => false
  | .cons k2 _ t => k = k2 || objMem k t

/-- Replace the value at the first entry with key `k`. -/
def objReplace (k : List Char) (v : JsonValue) : JsonObj → JsonObj
  | .nil => .nil
  | .cons k2 v2 t => if k2 = k then .cons k2 v t else .cons k2 v2 (objReplace k v t)

/-- Append an entry at the end of an object. -/
def objAppend : JsonObj → List Char → JsonValue → JsonObj
  | .nil, k, v => .cons k v .nil
  | .cons k2 v2 t, k, v => .cons k2 v2 (objAppend t k v)

/-- `json::object::Object::insert`: replace the value if the key is present
(keeping its position), otherwise append. -/
def objInsert (o : JsonObj) (k : List Char) (v : JsonValue) : JsonObj :=
  if objMem k o then objReplace k v o else objAppend o k v

/-- Build an object from parsed `(key, value)` pairs, in order, by repeated
`objInsert` (duplicate keys: the later value wins, at the first position). -/
def mkObject : List (List Char × JsonValue) → JsonObj → JsonObj
  | [], o => o
  | (k, v) :: rest, o => mkObject rest (objInsert o k v)

/-- The entries of an object as a list of pairs. -/
def objPairs : JsonObj → List (List Char × JsonValue)
  | .nil => []
  | .cons k v t => (k, v) :: objPairs t

/-- Concatenation of two objects' entry lists. -/
def objConcat : JsonObj → JsonObj → JsonObj
  | .nil, o2 => o2
  | .cons k v t, o2 => .cons k v (objConcat t o2)

/-- Keys of the object are pairwise distinct at this level. -/
def objNodupKeys : JsonObj → Bool
  | .nil => true
  | .cons k _ t => !objMem k t && objNodupKeys t

mutual
/-- Well-formed JSON value: every object, recursively, has pairwise distinct
keys.  Values produced through the `json` crate's API always satisfy this,
since `json::object::Object` keeps at most one entry per key. -/
def wfVal : JsonValue → Bool
  | .null => true
  | .bool _ => true
  | .num _ => true
  | .str _ => true
  | .arr a => wfArr a
  | .obj o => objNodupKeys o && wfObj o
/-- All elements are well-formed. -/
def wfArr : JsonArr → Bool
  | .nil => true
  | .cons h t => wfVal h && wfArr t
/-- All values are well-formed. -/
def wfObj : JsonObj → Bool
  | .nil => true
  | .cons _ v t => wfVal v && wfObj t
end

/-! ### Pretty printer (`JsonValue::pretty(4)`)

Modelled from the spec: "a canonical pretty-printed (4-space indent) UTF-8
encoding".  Containers open with a newline, items are indented 4 spaces per
nesting level and separated by `",\n"`, the closing bracket sits on its own
line at the enclosing indentation, object keys are quoted and followed by
`": "`, empty containers print as `[]` / `{}`, and strings escape the
quote, backslash and control characters. -/

/-- `4 * d` spaces of indentation. -/
def indentChars (d : Nat) : List Char := List.replicate (4 * d) ' '

/-- Lower-case hexadecimal digit for `n < 16`. -/
def hexDigitChar (n : Nat) : Char :=
  if n < 10 then Char.ofNat ('0'.toNat + n) else Char.ofNat ('a'.toNat + (n - 10))

/-- Decimal digit character for `n < 10`. -/
def digitChar (n : Nat) : Char := Char.ofNat ('0'.toNat + n)

/-- Escape of one string character: `"` and `\` get a backslash, the common
control characters use their short escapes, other control characters use
`\u00xx`, and everything else is verbatim. -/
def escapeChar (c : Char) : List Char :=
  if c = '"' then ['\\', '"']
  else if c = '\\' then ['\\', '\\']
  else if c = Char.ofNat 8 then ['\\', 'b']
  else if c = Char.ofNat 12 then ['\\', 'f']
  else if c = '\n' then ['\\', 'n']
  else if c = '\r' then ['\\', 'r']
  else if c = '\t' then ['\\', 't']
  else if c.toNat < 32 then
    ['\\', 'u', '0', '0', hexDigitChar (c.toNat / 16), hexDigitChar (c.toNat % 16)]
  else [c]

/-- Escape every character of a JSON string body. -/
def escapeString : List Char → List Char
  | [] => []
  | c :: r => escapeChar c ++ escapeString r

/-- Decimal digit characters of `n`, most significant first (tail-recursive
with a fuel argument so that the kernel can evaluate it). -/
def natCharsAux : Nat → Nat → List Char → List Char
  | 0, _, acc => acc
  | fuel + 1, n, acc =>
    if n < 10 then digitChar n :: acc
    else natCharsAux fuel (n / 10) (digitChar (n % 10) :: acc)

/-- Decimal representation of a natural number. -/
def natChars (n : Nat) : List Char := natCharsAux (n + 1) n []

/-- Recursive specification of the decimal digits, used in proofs. -/
def digitsOf (n : Nat) : List Char :=
  if _h : n < 10 then [digitChar n]
  else digitsOf (n / 10) ++ [digitChar (n % 10)]
decreasing_by exact Nat.div_lt_self (by omega) (by omega)

/-- Decimal representation of an integer. -/
def intChars (n : Int) : List Char :=
  if n < 0 then '-' :: natChars (-n).toNat else natChars n.toNat

mutual
/-- Modelled from the spec: `JsonValue.prettyPrint(4)` of the JSON
collaborator, at nesting depth `d`. -/
def prettyVal (d : Nat) : JsonValue → List Char
  | .null => ['n', 'u', 'l', 'l']
  | .bool b => if b then ['t', 'r', 'u', 'e'] else ['f', 'a', 'l', 's', 'e']
  | .num n => intChars n
  | .str s => '"' :: (escapeString s ++ ['"'])
  | .arr .nil => ['[', ']']
  | .arr a => '[' :: '\n' :: (prettyItems (d + 1) a ++ '\n' :: (indentChars d ++ [']']))
  | .obj .nil => ['{', '}']
  | .obj o => '{' :: '\n' :: (prettyFields (d + 1) o ++ '\n' :: (indentChars d ++ ['}']))
/-- The items of a (non-empty) array, indented and separated by `",\n"`. -/
def prettyItems (d : Nat) : JsonArr → List Char
  | .nil => []
  | .cons h .nil => indentChars d ++ prettyVal d h
  | .cons h t => indentChars d ++ prettyVal d h ++ ',' :: '\n' :: prettyItems d t
/-- The fields of a (non-empty) object, `"key": value`, separated by `",\n"`. -/
def prettyFields (d : Nat) : JsonObj → List Char
  | .nil => []
  | .cons k v .nil => indentChars d ++ '"' :: (escapeString k ++ '"' :: ':' :: ' ' :: prettyVal d v)
  | .cons k v t =>
    indentChars d ++ '"' :: (escapeString k ++ '"' :: ':' :: ' ' :: prettyVal d v) ++
      ',' :: '\n' :: prettyFields d t
end

/-! ### Parser (`json::parse`) -/

/-- JSON whitespace. -/
def isWsChar (c : Char) : Bool := c = ' ' || c = '\n' || c = '\t' || c = '\r'

/-- Drop leading whitespace. -/
def skipWs : List Char → List Char
  | [] => []
  | c :: r => if isWsChar c then skipWs r else c :: r

/-- Expect the literal characters `cs` as a prefix; return what follows. -/
def expectChars : List Char → List Char → Option (List Char)
  | [], s => some s
  | _ :: _, [] => Option.none
  | c :: cs, x :: xs => if x = c then expectChars cs xs else Option.none

/-- Value of a hexadecimal digit character. -/
def parseHexDigit (c : Char) : Option Nat :=
  if '0' ≤ c ∧ c ≤ '9' then some (c.toNat - '0'.toNat)
  else if 'a' ≤ c ∧ c ≤ 'f' then some (c.toNat - 'a'.toNat + 10)
  else if 'A' ≤ c ∧ c ≤ 'F' then some (c.toNat - 'A'.toNat + 10)
  else Option.none

/-- Single-character escapes. -/
def escDecode (e : Char) : Option Char :=
  if e = '"' then some '"'
  else if e = '\\' then some '\\'
  else if e = '/' then some '/'
  else if e = 'b' then some (Char.ofNat 8)
  else if e = 'f' then some (Char.ofNat 12)
  else if e = 'n' then some '\n'
  else if e = 'r' then some '\r'
  else if e = 't' then some '\t'
  else Option.none

/-- Parse the remainder of a JSON string after the opening quote: returns the
unescaped content and what follows the closing quote. -/
def parseStringRest : List Char → Option (List Char × List Char)
  | [] => Option.none
  | c :: r =>
    if c = '"' then some ([], r)
    else if c = '\\' then
      match r with
      | [] => Option.none
      | e :: r2 =>
        if e = 'u' then
          match r2 with
          | h1 :: h2 :: h3 :: h4 :: r3 =>
            match parseHexDigit h1, parseHexDigit h2, parseHexDigit h3, parseHexDigit h4 with
            | some a, some b, some x, some y =>
              let code := ((a * 16 + b) * 16 + x) * 16 + y
              if code < 0xd800 ∨ 0xdfff < code then
                (parseStringRest r3).map (fun p => (Char.ofNat code :: p.1, p.2))
              else Option.none
            | _, _, _, _ => Option.none
          | _ => Option.none
        else
          match escDecode e with
          | some ec => (parseStringRest r2).map (fun p => (ec :: p.1, p.2))
          | Option.none => Option.none
    else (parseStringRest r).map (fun p => (c :: p.1, p.2))

/-- Accumulate decimal digits. -/
def parseDigits (acc : Nat) : List Char → Nat × List Char
  | [] => (acc, [])
  | c :: r =>
    if c.isDigit then parseDigits (acc * 10 + (c.toNat - '0'.toNat)) r else (acc, c :: r)

/-- Parse an integer numeral: optional minus sign followed by digits. -/
def parseNumber : List Char → Option (JsonValue × List Char)
  | [] => Option.none
  | c :: r =>
    if c = '-' then
      match r with
      | [] => Option.none
      | c2 :: _ =>
        if c2.isDigit then
          let p := parseDigits 0 r
          some (.num (-(p.1 : Int)), p.2)
        else Option.none
    else if c.isDigit then
      let p := parseDigits 0 (c :: r)
      some (.num (p.1 : Int), p.2)
    else Option.none

mutual
/-- Modelled from the spec: the JSON collaborator's recursive-descent parser
(`json::parse`), with a fuel argument bounding the recursion depth. -/
def parseValue : Nat → List Char → Option (JsonValue × List Char)
  | 0, _ => Option.none
  | fuel + 1, s =>
    match skipWs s with
    | [] => Option.none
    | c :: r =>
      if c = 'n' then (expectChars ['u', 'l', 'l'] r).map (fun r2 => (.null, r2))
      else if c = 't' then (expectChars ['r', 'u', 'e'] r).map (fun r2 => (.bool true, r2))
      else if c = 'f' then (expectChars ['a', 'l', 's', 'e'] r).map (fun r2 => (.bool false, r2))
      else if c = '"' then (parseStringRest r).map (fun p => (.str p.1, p.2))
      else if c = '[' then
        match skipWs r with
        | [] => Option.none
        | x :: r2 =>
          if x = ']' then some (.arr .nil, r2)
          else (parseItems fuel (x :: r2)).map (fun p => (.arr p.1, p.2))
      else if c = '{' then
        match skipWs r with
        | [] => Option.none
        | x :: r2 =>
          if x = '}' then some (.obj .nil, r2)
          else (parseFields fuel (x :: r2)).map (fun p => (.obj (mkObject p.1 .nil), p.2))
      else if c = '-' ∨ c.isDigit then parseNumber (c :: r)
      else Option.none
/-- Items of a non-empty array: value, then `,` and more items or `]`. -/
def parseItems : Nat → List Char → Option (JsonArr × List Char)
  | 0, _ => Option.none
  | fuel + 1, s =>
    match parseValue fuel s with
    | Option.none => Option.none
    | some (v, r) =>
      match skipWs r with
      | [] => Option.none
      | x :: r2 =>
        if x = ',' then
          match parseItems fuel r2 with
          | Option.none => Option.none
          | some (t, r3) => some (.cons v t, r3)
        else if x = ']' then some (.cons v .nil, r2)
        else Option.none
/-- Fields of a non-empty object: `"key"`, `:`, value, then `,` or `}`. -/
def parseFields : Nat → List Char → Option (List (List Char × JsonValue) × List Char)
  | 0, _ => Option.none
  | fuel + 1, s =>
    match skipWs s with
    | [] => Option.none
    | c :: r =>
      if c = '"' then
        match parseStringRest r with
        | Option.none => Option.none
        | some (k, r1) =>
          match skipWs r1 with
          | [] => Option.none
          | x :: r2 =>
            if x = ':' then
              match parseValue fuel r2 with
              | Option.none => Option.none
              | some (v, r3) =>
                match skipWs r3 with
                | [] => Option.none
                | y :: r4 =>
                  if y = ',' then
                    match parseFields fuel r4 with
                    | Option.none => Option.none
                    | some (t, r5) => some ((k, v) :: t, r5)
                  else if y = '}' then some ([(k, v)], r4)
                  else Option.none
            else Option.none
      else Option.none
end

mutual
/-- Fuel sufficient for `parseValue` to parse the pretty-printed form. -/
def fuelNeed : JsonValue → Nat
  | .null => 1
  | .bool _ => 1
  | .num _ => 1
  | .str _ => 1
  | .arr a => 1 + fuelNeedArr a
  | .obj o => 1 + fuelNeedObj o
/-- Fuel sufficient for `parseItems`. -/
def fuelNeedArr : JsonArr → Nat
  | .nil => 0
  | .cons h t => 1 + max (fuelNeed h) (fuelNeedArr t)
/-- Fuel sufficient for `parseFields`. -/
def fuelNeedObj : JsonObj → Nat
  | .nil => 0
  | .cons _ v t => 1 + max (fuelNeed v) (fuelNeedObj t)
end

/-- Modelled-from-the-spec placeholder for the parser's error text (the spec
fixes no wording for JSON syntax errors). -/
def parseErrorMessage : String := "Unexpected character"

/-- Modelled from the spec: `json::parse` on a whole text: one value, then
only trailing whitespace. -/
def jsonParse (s : List Char) : Except String JsonValue :=
  match parseValue (s.length + 1) s with
  | some (v, r) => if skipWs r = [] then .ok v else .error parseErrorMessage
  | Option.none => .error parseErrorMessage

/-! ### UTF-8 codec (`String::into_bytes` and `std::str::from_utf8`) -/

/-- UTF-8 encoding of one unicode scalar value. -/
def utf8EncodeChar (c : Char) : List Nat :=
  let n := c.toNat
  if n < 0x80 then [n]
  else if n < 0x800 then [0xc0 + n / 64, 0x80 + n % 64]
  else if n < 0x10000 then [0xe0 + n / 4096, 0x80 + n / 64 % 64, 0x80 + n % 64]
  else [0xf0 + n / 262144, 0x80 + n / 4096 % 64, 0x80 + n / 64 % 64, 0x80 + n % 64]

/-- UTF-8 encoding of a string (`String::into_bytes`). -/
def utf8Encode : List Char → List Nat
  | [] => []
  | c :: r => utf8EncodeChar c ++ utf8Encode r

/-- UTF-8 continuation byte. -/
def isCont (b : Nat) : Bool := decide (0x80 ≤ b ∧ b < 0xc0)

/-- Admissible second byte of a multi-byte sequence, per the UTF-8 table
enforced by `std::str::from_utf8` (excludes overlong forms and surrogates). -/
def utf8Byte2Ok (b1 b2 : Nat) : Bool :=
  if b1 = 0xe0 then decide (0xa0 ≤ b2 ∧ b2 < 0xc0)
  else if b1 = 0xed then decide (0x80 ≤ b2 ∧ b2 < 0xa0)
  else if b1 = 0xf0 then decide (0x90 ≤ b2 ∧ b2 < 0xc0)
  else if b1 = 0xf4 then decide (0x80 ≤ b2 ∧ b2 < 0x90)
  else isCont b2

/-- Decode the first UTF-8 sequence of the byte list, with validation
(`std::str::from_utf8`): rejects invalid leading bytes, truncated sequences,
bad continuation bytes, overlong forms and surrogates.  Returns the scalar
value and the remaining bytes. -/
def utf8DecodeOne : List Nat → Option (Nat × List Nat)
  | [] => Option.none
  | b1 :: rest =>
    if b1 < 0x80 then some (b1, rest)
    else if b1 < 0xc2 then Option.none
    else if b1 < 0xe0 then
      match rest with
      | b2 :: rest2 =>
        if isCont b2 then some ((b1 - 0xc0) * 64 + (b2 - 0x80), rest2) else Option.none
      | [] => Option.none
    else if b1 < 0xf0 then
      match rest with
      | b2 :: b3 :: rest3 =>
        if utf8Byte2Ok b1 b2 && isCont b3 then
          some (((b1 - 0xe0) * 64 + (b2 - 0x80)) * 64 + (b3 - 0x80), rest3)
        else Option.none
      | _ => Option.none
    else if b1 < 0xf5 then
      match rest with
      | b2 :: b3 :: b4 :: rest4 =>
        if utf8Byte2Ok b1 b2 && isCont b3 && isCont b4 then
          some ((((b1 - 0xf0) * 64 + (b2 - 0x80)) * 64 + (b3 - 0x80)) * 64 + (b4 - 0x80), rest4)
        else Option.none
      | _ => Option.none
    else Option.none

/-- Decoding loop: one sequence at a time.  Every decoded sequence consumes
at least one byte, so fuel equal to the byte count suffices; the fuel only
makes the recursion structural. -/
def utf8DecodeLoop : Nat → List Nat → Option (List Char)
  | _, [] => some []
  | 0, _ :: _ => Option.none
  | fuel + 1, b :: rest =>
    match utf8DecodeOne (b :: rest) with
    | some (n, rest2) => (utf8DecodeLoop fuel rest2).map (Char.ofNat n :: ·)
    | Option.none => Option.none

/-- UTF-8 decoding of a whole byte buffer (`std::str::from_utf8`). -/
def utf8Decode (l : List Nat) : Option (List Char) :=
  utf8DecodeLoop l.length l

/-- Modelled-from-the-spec placeholder for the display text of a UTF-8
decoding failure (the spec fixes no wording for it). -/
def utf8ErrorMessage : String := "invalid utf-8 sequence"

/-! ## HttpMessage (src/lib.rs lines 287-375) -/

/-- `CONTENT_TYPE` (src/lib.rs line 103). -/
def CONTENT_TYPE : String := "Content-Type"

/-- `APPLICATION_JSON` (src/lib.rs line 105). -/
def APPLICATION_JSON : String := "application/json"

/-- `ACCEPT` (src/lib.rs line 107). -/
def ACCEPT : String := "Accept"

/-- Model of the `std::io::Error` values built by `HttpMessage::json`: always
kind `InvalidData`, carrying a display message. -/
structure IoError where
  message : String
deriving DecidableEq

/-- `HttpMessage` (src/lib.rs lines 288-293). -/
structure HttpMessage where
  headers : HeaderMap
  body : MessageBody
deriving DecidableEq

namespace HttpMessage

/-- `HttpMessage::new` (src/lib.rs lines 297-302). -/
def new : HttpMessage := ⟨HeaderMap.new, .none⟩

/-- `HttpMessage::insert_header` (src/lib.rs lines 305-310). -/
def insert_header (m : HttpMessage) (key value : String) : HttpMessage :=
  { m with headers := (m.headers.insert key value).1 }

/-- `HttpMessage::has_single_body` (src/lib.rs lines 323-325). -/
def has_single_body (m : HttpMessage) : Bool := m.body.is_single

/-- `HttpMessage::has_multipart_body` (src/lib.rs lines 328-330). -/
def has_multipart_body (m : HttpMessage) : Bool := m.body.is_multipart

/-- `HttpMessage::set_body` (src/lib.rs lines 333-336). -/
def set_body (m : HttpMessage) (data : List Nat) : HttpMessage :=
  { m with body := .single data }

/-- `HttpMessage::body` accessor (src/lib.rs lines 339-345): the buffer if the
body is `Single`, absent otherwise. -/
def bodyData (m : HttpMessage) : Option (List Nat) :=
  match m.body with
  | .single d => some d
  | _ => Option.none

/-- `HttpMessage::set_json` (src/lib.rs lines 349-353): pretty-print with
4-space indent, set the `Content-Type` header to `application/json`, store
the UTF-8 bytes as a single body. -/
def set_json (m : HttpMessage) (data : JsonValue) : HttpMessage :=
  let pretty := prettyVal 0 data
  let m1 : HttpMessage := { m with headers := (m.headers.insert CONTENT_TYPE APPLICATION_JSON).1 }
  m1.set_body (utf8Encode pretty)

/-- `HttpMessage::json` (src/lib.rs lines 356-374): error "Empty body" unless
the body is `Single`; then UTF-8 decode, then JSON parse, wrapping each
failure as an `InvalidData` error. -/
def json (m : HttpMessage) : Except IoError JsonValue :=
  match m.body with
  | .single bytes =>
    match utf8Decode bytes with
    | Option.none => .error ⟨utf8ErrorMessage⟩
    | some chars =>
      match jsonParse chars with
      | .ok v => .ok v
      | .error e => .error ⟨e⟩
  | _ => .error ⟨"Empty body"⟩

end HttpMessage

/-! ## URL collaborator model -/

/-- Modelled from the spec: the structured URL produced by the URL
collaborator (`url::Url`); only the scheme split is represented. -/
structure UrlStruct where
  scheme : String
  rest : String
deriving DecidableEq

/-- Split a character list at the first `':'`. -/
def splitColon : List Char → Option (List Char × List Char)
  | [] => Option.none
  | c :: r =>
    if c = ':' then some ([], r)
    else (splitColon r).map (fun p => (c :: p.1, p.2))

/-- RFC 3986 scheme: a letter followed by letters, digits, `+`, `-` or `.`. -/
def schemeOk : List Char → Bool
  | [] => false
  | c :: r => c.isAlpha && r.all (fun x => x.isAlphanum || x = '+' || x = '-' || x = '.')

/-- Modelled from the spec: the URL collaborator's
`parse(rawTarget: string) -> structured-URL, fails with ParseError`; the
model checks that the target has a syntactically valid `scheme:` prefix, so
that `"http://example.com/user"` parses and `"http//example.com/user"`
(missing colon) does not. -/
def urlParse (s : String) : Option UrlStruct :=
  match splitColon s.data with
  | some (sch, rest) => if schemeOk sch then some ⟨⟨sch⟩, ⟨rest⟩⟩ else Option.none
  | Option.none => Option.none

/-! ## Request (src/lib.rs lines 392-566) -/

/-- `Request` (src/lib.rs lines 392-405). -/
structure Request where
  base : HttpMessage
  method : HttpMethod
  target : String
  url : Option UrlStruct
  cookies : KeyValueMap
  params : KeyValueMap

namespace Request

/-- `Request::new` (src/lib.rs lines 410-424): stores the target string
verbatim, parses it with the URL collaborator and keeps `parsed_url.ok()`;
construction itself always succeeds. -/
def new (method : HttpMethod) (url : String) : Request :=
  { base := HttpMessage.new
    method := method
    target := url
    url := urlParse url
    cookies := KeyValueMap.new
    params := KeyValueMap.new }

/-- `Request::insert_param` (src/lib.rs lines 495-501). -/
def insert_param (r : Request) (key value : String) : Request :=
  { r with params := (r.params.insert key value).1 }

/-- `Request::insert_cookie` (src/lib.rs lines 514-520): inserts into the
`cookies` map. -/
def insert_cookie (r : Request) (key value : String) : Request :=
  { r with cookies := (r.cookies.insert key value).1 }

/-- `Request::params_mut` (src/lib.rs lines 509-511) returns `&mut self.params`;
a mutation through it is modelled as updating the `params` field. -/
def params_mut_update (r : Request) (f : KeyValueMap → KeyValueMap) : Request :=
  { r with params := f r.params }

/-- `Request::cookies_mut` (src/lib.rs lines 528-530).  The source returns
`&mut self.params` — the params field, not the cookies field — so a mutation
through `cookies_mut` is modelled as updating the `params` field. -/
def cookies_mut_update (r : Request) (f : KeyValueMap → KeyValueMap) : Request :=
  { r with params := f r.params }

/-- `Request::set_json` via `DerefMut` delegation to the embedded
`HttpMessage` (src/lib.rs lines 551-555). -/
def set_json (r : Request) (data : JsonValue) : Request :=
  { r with base := r.base.set_json data }

/-- `Request::json` via `Deref` delegation (src/lib.rs lines 543-549). -/
def json (r : Request) : Except IoError JsonValue :=
  r.base.json

end Request

/-! ## Response (src/lib.rs lines 644-744) -/

/-- Modelled from the spec: the Set-Cookie collaborator's structure, "at
least `{name: string, value: string, maxAge: optional duration, ...}`";
only the fields this library stores and returns are represented. -/
structure SetCookie where
  name : String
  value : String
deriving DecidableEq

/-- `Response` (src/lib.rs lines 656-667). -/
structure Response where
  base : HttpMessage
  status_code : Nat
  cookies : List SetCookie
  auth : List String
  proxy_auth : List String

namespace Response

/-- `Response::new` (src/lib.rs lines 674-682). -/
def new (status : Nat) : Response :=
  { base := HttpMessage.new
    status_code := status
    cookies := []
    auth := []
    proxy_auth := [] }

/-- `Response::insert_cookie` (src/lib.rs lines 689-692): appends to the
cookie list. -/
def insert_cookie (r : Response) (value : SetCookie) : Response :=
  { r with cookies := r.cookies ++ [value] }

/-- `Response::cookies` (src/lib.rs lines 695-697): `iter().collect()`,
i.e. the list in insertion order. -/
def cookiesView (r : Response) : List SetCookie :=
  r.cookies

/-- A sequence of `insert_cookie` calls, in order. -/
def insertCookies (r : Response) (cs : List SetCookie) : Response :=
  cs.foldl insert_cookie r

/-- `Response::set_json` via `DerefMut` delegation (src/lib.rs lines
740-744). -/
def set_json (r : Response) (data : JsonValue) : Response :=
  { r with base := r.base.set_json data }

/-- `Response::json` via `Deref` delegation (src/lib.rs lines 732-738). -/
def json (r : Response) : Except IoError JsonValue :=
  r.base.json

end Response

/-! ## Derived notions used in theorem statements -/

/-- The value of the last pair of `ops` whose key is fold-equal to `q`. -/
def lastMatchValue (ops : List (String × String)) (q : String) : Option String :=
  (ops.reverse.find? (fun p => asciiFold p.1 = asciiFold q)).map Prod.snd

/-- The value of the first pair of `ops` whose key is fold-equal to `q`. -/
def firstMatchValue (ops : List (String × String)) (q : String) : Option String :=
  (ops.find? (fun p => asciiFold p.1 = asciiFold q)).map Prod.snd

/-- Every character of the list is whitespace. -/
def IsWsList (w : List Char) : Prop := ∀ c ∈ w, isWsChar c = true

/-- The list does not start with a decimal digit (what may legally follow a
printed numeral). -/
def headNotDigit : List Char → Prop
  | [] => True
  | c :: _ => c.isDigit = false

/-!
# Theorems

## Association-list map lemmas
-/

theorem HeaderMap.findFold_insertEntries (k v q : String) (l : List (String × String)) :
    HeaderMap.findFold q (HeaderMap.insertEntries k v l) =
      if asciiFold k = asciiFold q then some v else HeaderMap.findFold q l := by
  induction l with
  | nil =>
    simp only [insertEntries, findFold]
  | cons p t ih =>
    obtain ⟨a, b⟩ := p
    simp only [insertEntries]
    by_cases hak : asciiFold a = asciiFold k
    · simp only [if_pos hak, findFold]
      by_cases hkq : asciiFold k = asciiFold q
      · simp [hak.trans hkq, hkq]
      · have haq : ¬ asciiFold a = asciiFold q := fun h => hkq (hak.symm.trans h)
        simp [haq, hkq]
    · simp only [if_neg hak, findFold, ih]
      by_cases haq : asciiFold a = asciiFold q
      · have hkq : ¬ asciiFold k = asciiFold q := fun h => hak (haq.trans h.symm)
        simp [haq, hkq]
      · simp [haq]

theorem HeaderMap.get_insert (m : HeaderMap) (k v q : String) :
    ((m.insert k v).1).get q =
      if asciiFold k = asciiFold q then some v else m.get q := by
  simp only [insert, get]
  exact findFold_insertEntries k v q m.entries

theorem HeaderMap.contains_key_iff (m : HeaderMap) (k : String) :
    m.contains_key k = true ↔ ∃ p ∈ m.entries, asciiFold p.1 = asciiFold k := by
  simp [contains_key, List.any_eq_true]

theorem lastMatchValue_cons (p : String × String) (t : List (String × String)) (q : String) :
    lastMatchValue (p :: t) q =
      (lastMatchValue t q).or (if asciiFold p.1 = asciiFold q then some p.2 else none) := by
  simp only [lastMatchValue, List.reverse_cons, List.find?_append]
  rcases h : List.find? (fun x => decide (asciiFold x.1 = asciiFold q)) t.reverse with _ | r
  · by_cases hp : asciiFold p.1 = asciiFold q <;>
      simp [h, List.find?, hp, Option.none_or]
  · simp [h, show ∀ x, (some r).or x = some r from fun _ => rfl,
      show ∀ x, (some r.2).or x = some r.2 from fun _ => rfl]

theorem HeaderMap.get_applyInserts (ops : List (String × String)) :
    ∀ (m : HeaderMap) (q : String),
      (HeaderMap.applyInserts m ops).get q = (lastMatchValue ops q).or (m.get q) := by
  induction ops with
  | nil =>
    intro m q
    simp [applyInserts, lastMatchValue, Option.or]
  | cons p t ih =>
    intro m q
    have hstep : HeaderMap.applyInserts m (p :: t) =
        HeaderMap.applyInserts ((m.insert p.1 p.2).1) t := rfl
    rw [hstep, ih, get_insert, lastMatchValue_cons]
    rcases lastMatchValue t q with _ | r
    · by_cases hp : asciiFold p.1 = asciiFold q <;> simp [hp, Option.or]
    · simp [Option.or]

theorem KeyValueMap.kv_findExact_insertEntries (k v q : String) (l : List (String × String)) :
    KeyValueMap.findExact q (KeyValueMap.insertEntries k v l) =
      if k = q then some v else KeyValueMap.findExact q l := by
  induction l with
  | nil =>
    simp only [insertEntries, findExact]
  | cons p t ih =>
    obtain ⟨a, b⟩ := p
    simp only [insertEntries]
    by_cases hak : a = k
    · subst hak
      simp only [if_pos rfl, findExact]
      by_cases haq : a = q
      · simp [haq]
      · simp [haq, findExact]
    · simp only [if_neg hak, findExact, ih]
      by_cases haq : a = q
      · have hkq : ¬ k = q := fun h => hak (haq.trans h.symm)
        simp [haq, hkq]
      · simp [haq]

theorem KeyValueMap.kv_get_insert (m : KeyValueMap) (k v q : String) :
    ((m.insert k v).1).get q = if k = q then some v else m.get q := by
  simp only [insert, get]
  exact kv_findExact_insertEntries k v q m.entries

theorem KeyValueMap.kv_contains_key_iff (m : KeyValueMap) (k : String) :
    m.contains_key k = true ↔ ∃ p ∈ m.entries, p.1 = k := by
  simp [contains_key, List.any_eq_true]

/-!
## Claim C2: conversion constructors and key collisions
-/

/-- C2 counterexample: the claim says that for either conversion constructor
the LAST pair of the input wins on a case-insensitive collision; for the
`From<Vec<(String, String)>>` constructor (which pops pairs off the end and
therefore inserts them in reverse order) the input
`[("a", "1"), ("A", "2")]` yields value `"1"` — the first pair — not
`"2"`. -/
theorem headerMapFromOwnedVec_first_pair_wins :
    (headerMapFromOwnedVec [("a", "1"), ("A", "2")]).get "a" = some "1"
    ∧ some "1" ≠ some "2" := by
  constructor
  · rfl
  · decide

/-- C2 amended: for the `From<&Vec<(&str, &str)>>` constructor (front-to-back
insertion) the value for each case-insensitive identity comes from the LAST
matching pair; for the `From<Vec<(String, String)>>` constructor (pop loop,
reverse-order insertion) it comes from the FIRST matching pair. -/
theorem headerMap_from_vec_collision (l : List (String × String)) (q : String) :
    (headerMapFromRefVec l).get q = lastMatchValue l q
    ∧ (headerMapFromOwnedVec l).get q = firstMatchValue l q := by
  constructor
  · rw [headerMapFromRefVec, HeaderMap.get_applyInserts]
    simp [HeaderMap.new, HeaderMap.get, HeaderMap.findFold, Option.or_none]
  · rw [headerMapFromOwnedVec, HeaderMap.get_applyInserts]
    simp [HeaderMap.new, HeaderMap.get, HeaderMap.findFold, Option.or_none, lastMatchValue,
      firstMatchValue, List.reverse_reverse]

/-!
## Claim C3: repeated case-insensitive insertion
-/

/-- Inserting a key that is not yet present appends the entry. -/
theorem HeaderMap.insertEntries_of_not_contains (k v : String) (l : List (String × String))
    (h : l.all (fun p => !decide (asciiFold p.1 = asciiFold k)) = true) :
    HeaderMap.insertEntries k v l = l ++ [(k, v)] := by
  induction l with
  | nil => simp [insertEntries]
  | cons p t ih =>
    simp only [List.all_cons, Bool.and_eq_true, Bool.not_eq_true', decide_eq_false_iff_not] at h
    simp only [insertEntries, if_neg h.1, List.cons_append]
    rw [ih]
    simp only [List.all_eq_true] at *
    intro x hx
    exact h.2 x hx

/-- C3 counterexample: after `insert("Content-Type", "a")` then
`insert("CONTENT-TYPE", "b")` the single stored entry is
`("Content-Type", "b")` — the key keeps the FIRST insertion's casing
(`HashMap::insert` does not update an existing key), so iteration does
not yield the pair `("CONTENT-TYPE", "b")` claimed. -/
theorem headerMap_insert_keeps_first_key_casing :
    ((((HeaderMap.new.insert "Content-Type" "a").1).insert "CONTENT-TYPE" "b").1).iter
      = [("Content-Type", "b")]
    ∧ ("Content-Type", "b") ≠ (("CONTENT-TYPE", "b") : String × String) := by
  constructor
  · rfl
  · decide

/-- Inserting a fold-matching key into a list ending in the matching entry
replaces that entry's value, keeping its key. -/
theorem HeaderMap.insertEntries_append_match (k1 k2 v1 v2 : String)
    (hfold : asciiFold k1 = asciiFold k2) :
    ∀ (l : List (String × String)),
      l.all (fun p => !decide (asciiFold p.1 = asciiFold k2)) = true →
      HeaderMap.insertEntries k2 v2 (l ++ [(k1, v1)]) = l ++ [(k1, v2)]
  | [], _ => by simp [insertEntries, hfold]
  | p :: t, hl => by
    have hl' : ¬ (asciiFold p.1 = asciiFold k2)
        ∧ t.all (fun x => !decide (asciiFold x.1 = asciiFold k2)) = true := by
      simpa [List.all_cons] using hl
    simp only [List.cons_append, insertEntries, if_neg hl'.1, List.append_eq]
    rw [insertEntries_append_match k1 k2 v1 v2 hfold t hl'.2]

/-- C3 amended: starting from a map with no entry for the identity, two
insertions under case-folding-equal keys `k1` then `k2` leave exactly one
entry for that identity, and iteration yields the pair `(k1, v2)`: the value
of the most recent insertion under the key casing of the FIRST insertion. -/
theorem headerMap_insert_insert_spec (m : HeaderMap) (k1 k2 v1 v2 : String)
    (hfold : asciiFold k1 = asciiFold k2) (hnew : m.contains_key k1 = false) :
    (((m.insert k1 v1).1).insert k2 v2).1.iter = m.entries ++ [(k1, v2)]
    ∧ ((((m.insert k1 v1).1).insert k2 v2).1.iter.countP
        (fun p => asciiFold p.1 = asciiFold k2)) = 1 := by
  have hall : m.entries.all (fun p => !decide (asciiFold p.1 = asciiFold k1)) = true := by
    simp only [List.all_eq_true, Bool.not_eq_true', decide_eq_false_iff_not]
    intro p hp hcontra
    have hk : m.contains_key k1 = true := (HeaderMap.contains_key_iff m k1).2 ⟨p, hp, hcontra⟩
    simp [hk] at hnew
  have hall2 : m.entries.all (fun p => !decide (asciiFold p.1 = asciiFold k2)) = true := by
    simp only [List.all_eq_true, Bool.not_eq_true', decide_eq_false_iff_not] at hall ⊢
    intro p hp
    rw [← hfold]
    exact hall p hp
  have h1 : ((m.insert k1 v1).1).entries = m.entries ++ [(k1, v1)] :=
    HeaderMap.insertEntries_of_not_contains k1 v1 m.entries hall
  have h2 : (((m.insert k1 v1).1).insert k2 v2).1.entries = m.entries ++ [(k1, v2)] := by
    show HeaderMap.insertEntries k2 v2 ((m.insert k1 v1).1).entries = _
    rw [h1]
    exact HeaderMap.insertEntries_append_match k1 k2 v1 v2 hfold m.entries hall2
  refine ⟨h2, ?_⟩
  rw [show (((m.insert k1 v1).1).insert k2 v2).1.iter
      = (((m.insert k1 v1).1).insert k2 v2).1.entries from rfl, h2]
  rw [List.countP_append]
  have hz : m.entries.countP (fun p => decide (asciiFold p.1 = asciiFold k2)) = 0 := by
    rw [List.countP_eq_zero]
    simp only [List.all_eq_true, Bool.not_eq_true', decide_eq_false_iff_not] at hall2
    intro p hp
    simp [hall2 p hp]
  rw [hz]
  simp [List.countP_cons, hfold]

/-- C3 amended, concrete instance: the two-insert sequence from an empty map. -/
theorem headerMap_insert_insert_spec_witness :
    ((((HeaderMap.new.insert "Content-Type" "a").1).insert "CONTENT-TYPE" "b").1).iter
      = HeaderMap.new.entries ++ [("Content-Type", "b")] :=
  (headerMap_insert_insert_spec HeaderMap.new "Content-Type" "CONTENT-TYPE" "a" "b"
    (by decide) (by decide)).1

/-!
## Claim C7: case-insensitive get after a sequence of insertions
-/

/-- C7: after any sequence of insertions into any `HeaderMap`, `get` with any
query whose ASCII case-folding matches some inserted key succeeds and
returns the value of the most recent fold-matching insertion. -/
theorem headerMap_get_case_variant (m : HeaderMap) (ops : List (String × String)) (q : String)
    (h : ops.any (fun p => asciiFold p.1 = asciiFold q) = true) :
    (HeaderMap.applyInserts m ops).get q = lastMatchValue ops q
    ∧ (lastMatchValue ops q).isSome = true := by
  have hsome : (lastMatchValue ops q).isSome = true := by
    simp only [lastMatchValue, Option.isSome_map']
    rw [List.find?_isSome]
    simp only [List.any_eq_true, decide_eq_true_eq] at h
    obtain ⟨p, hp, hm⟩ := h
    exact ⟨p, by simp [hp], by simp [hm]⟩
  refine ⟨?_, hsome⟩
  rw [HeaderMap.get_applyInserts]
  rcases hl : lastMatchValue ops q with _ | r
  · rw [hl] at hsome
    simp at hsome
  · simp [Option.or]

/-- C7 witness: a concrete insertion retrieved under a different casing. -/
theorem headerMap_get_case_variant_witness :
    (HeaderMap.applyInserts HeaderMap.new [("Content-Type", "a")]).get "content-type"
      = lastMatchValue [("Content-Type", "a")] "content-type"
    ∧ (lastMatchValue [("Content-Type", "a")] "content-type").isSome = true :=
  headerMap_get_case_variant HeaderMap.new [("Content-Type", "a")] "content-type" (by decide)

/-!
## Claim C8: exact-key semantics of KeyValueMap
-/

/-- C8: `KeyValueMap.insert` affects only the exactly-equal key: `get` with
any different key (in particular any different casing) is unchanged, while
`get` with the inserted key returns the new value — so `"id"` and `"ID"`
coexist as distinct entries. -/
theorem keyValueMap_case_sensitive (m : KeyValueMap) (k v q : String) (h : q ≠ k) :
    ((m.insert k v).1).get q = m.get q ∧ ((m.insert k v).1).get k = some v := by
  constructor
  · rw [KeyValueMap.kv_get_insert, if_neg (fun hk => h hk.symm)]
  · rw [KeyValueMap.kv_get_insert, if_pos rfl]

/-- C8 witness: `"id"` and `"ID"` coexist; inserting `"ID"` leaves `"id"`
untouched. -/
theorem keyValueMap_case_sensitive_witness :
    (((KeyValueMap.new.insert "id" "1234").1.insert "ID" "3456").1).get "id"
        = ((KeyValueMap.new.insert "id" "1234").1).get "id"
    ∧ (((KeyValueMap.new.insert "id" "1234").1.insert "ID" "3456").1).get "ID"
        = some "3456" :=
  keyValueMap_case_sensitive ((KeyValueMap.new.insert "id" "1234").1) "ID" "3456" "id"
    (by decide)

/-!
## Claim C9: insert's return value
-/

/-- C9: for both maps, `insert` returns `true` exactly when an entry with the
same identity (case-insensitive for `HeaderMap`, exact for `KeyValueMap`)
existed immediately before the call. -/
theorem insert_returns_existence (hm : HeaderMap) (km : KeyValueMap) (k v : String) :
    ((hm.insert k v).2 = true ↔ ∃ p ∈ hm.entries, asciiFold p.1 = asciiFold k)
    ∧ ((km.insert k v).2 = true ↔ ∃ p ∈ km.entries, p.1 = k) := by
  constructor
  · rw [show (hm.insert k v).2 = hm.contains_key k from rfl]
    exact HeaderMap.contains_key_iff hm k
  · rw [show (km.insert k v).2 = km.contains_key k from rfl]
    exact KeyValueMap.kv_contains_key_iff km k

/-!
## Claim C1: cookies_mut mutates the params map (code bug)
-/

/-- C1 (divergence witness): `Request::cookies_mut` returns
`&mut self.params` (src/lib.rs lines 528-530), so inserting through it
lands in the params map and leaves the cookie map unchanged, while
`insert_cookie` and `insert_param` do target their own maps. -/
theorem request_cookies_mut_hits_params :
    ((Request.new .GET "http://example.com/user").cookies_mut_update
        (fun m => (m.insert "k" "v").1)).params.get "k" = some "v"
    ∧ ((Request.new .GET "http://example.com/user").cookies_mut_update
        (fun m => (m.insert "k" "v").1)).cookies.get "k" = Option.none
    ∧ ((Request.new .GET "http://example.com/user").cookies_mut_update
        (fun m => (m.insert "k" "v").1)).cookies
      = (Request.new .GET "http://example.com/user").cookies := by
  refine ⟨rfl, rfl, rfl⟩

/-!
## Claim C6: permissive Request construction
-/

/-- C6: `Request::new` is total for every method and target string; it stores
the target verbatim and stores exactly the URL collaborator's parse result,
so `url()` is present iff parsing succeeded — absent for the malformed
`"http//example.com/user"`, present for `"http://example.com/user"`. -/
theorem request_new_spec :
    (∀ (method : HttpMethod) (s : String),
      (Request.new method s).target = s
      ∧ (Request.new method s).url = urlParse s
      ∧ ((Request.new method s).url.isSome = true ↔ (urlParse s).isSome = true))
    ∧ urlParse "http//example.com/user" = Option.none
    ∧ (urlParse "http://example.com/user").isSome = true := by
  refine ⟨fun method s => ⟨rfl, rfl, Iff.rfl⟩, by decide, by decide⟩

/-!
## Claim C10: Response cookies preserve order and duplicates
-/

/-- C10: `Response::insert_cookie` appends, so `cookies()` returns exactly
the inserted cookie structures in insertion order with no deduplication and
no case folding — in particular `"session"` and `"Session"` remain two
distinct retrievable entries. -/
theorem response_cookies_spec :
    (∀ (r : Response) (cs : List SetCookie),
      (r.insertCookies cs).cookiesView = r.cookiesView ++ cs)
    ∧ (((Response.new 200).insert_cookie ⟨"session", "1234"⟩).insert_cookie
          ⟨"Session", "3456"⟩).cookiesView
        = [⟨"session", "1234"⟩, ⟨"Session", "3456"⟩] := by
  constructor
  · intro r cs
    induction cs generalizing r with
    | nil => simp [Response.insertCookies, Response.cookiesView]
    | cons c t ih =>
      have hstep : r.insertCookies (c :: t) = (r.insert_cookie c).insertCookies t := rfl
      rw [hstep, ih, Response.cookiesView, Response.insert_cookie]
      simp [Response.cookiesView]
  · rfl

/-!
## Character-level lemmas
-/

theorem char_toNat_inj (a b : Char) (h : a.toNat = b.toNat) : a = b :=
  Char.ext (UInt32.ext h)

theorem toNat_ofNat_valid (n : Nat) (h : n.isValidChar) : (Char.ofNat n).toNat = n := by
  unfold Char.ofNat
  split
  · simp [Char.toNat, Char.ofNatAux, UInt32.toNat, BitVec.toNat_ofNatLt]
  · rename_i hc
    exact absurd h hc

theorem char_valid_ranges (c : Char) :
    c.toNat < 0xd800 ∨ (0xdfff < c.toNat ∧ c.toNat < 0x110000) := by
  rcases c.valid with h | ⟨h1, h2⟩
  · exact Or.inl h
  · exact Or.inr ⟨h1, h2⟩

theorem isDigit_bounds (c : Char) (h : c.isDigit = true) :
    48 ≤ c.toNat ∧ c.toNat ≤ 57 := by
  simp [Char.isDigit, Char.le_def] at h
  exact h

theorem digitChar_isDigit (n : Nat) (h : n < 10) : (digitChar n).isDigit = true := by
  interval_cases n <;> decide

theorem digitChar_toNat (n : Nat) (h : n < 10) : (digitChar n).toNat = 48 + n := by
  interval_cases n <;> decide

theorem hexDigitChar_parse (n : Nat) (h : n < 16) :
    parseHexDigit (hexDigitChar n) = some n := by
  interval_cases n <;> decide

theorem digit_not_ws (c : Char) (h : c.isDigit = true) : isWsChar c = false := by
  cases hw : isWsChar c with
  | false => rfl
  | true =>
    exfalso
    simp only [isWsChar, Bool.or_eq_true, decide_eq_true_eq] at hw
    rcases hw with ((he | he) | he) | he <;> (subst he; exact absurd h (by decide))

theorem digit_ne (c x : Char) (h : c.isDigit = true) (hx : x.isDigit = false) : c ≠ x := by
  intro he
  rw [he, hx] at h
  cases h

/-!
## Whitespace lemmas
-/

theorem skipWs_drop_ws : ∀ (w : List Char), IsWsList w → ∀ (s : List Char),
    skipWs (w ++ s) = skipWs s
  | [], _, s => rfl
  | c :: t, h, s => by
    have hc : isWsChar c = true := h c (by simp)
    have ht : IsWsList t := fun x hx => h x (by simp [hx])
    simp only [List.cons_append, skipWs, if_pos hc]
    exact skipWs_drop_ws t ht s

theorem skipWs_not_ws (c : Char) (s : List Char) (h : isWsChar c = false) :
    skipWs (c :: s) = c :: s := by
  simp [skipWs, h]

theorem skipWs_idem (s : List Char) : skipWs (skipWs s) = skipWs s := by
  induction s with
  | nil => rfl
  | cons c t ih =>
    by_cases hc : isWsChar c = true
    · simp [skipWs, hc, ih]
    · simp only [Bool.not_eq_true] at hc
      simp [skipWs, hc]

theorem indentChars_ws (d : Nat) : IsWsList (indentChars d) := by
  intro c hc
  simp only [indentChars, List.mem_replicate] at hc
  rw [hc.2]
  decide

theorem isWsList_append (w1 w2 : List Char) (h1 : IsWsList w1) (h2 : IsWsList w2) :
    IsWsList (w1 ++ w2) := by
  intro c hc
  rcases List.mem_append.1 hc with h | h
  · exact h1 c h
  · exact h2 c h

theorem parseValue_congr (f : Nat) (s1 s2 : List Char) (h : skipWs s1 = skipWs s2) :
    parseValue f s1 = parseValue f s2 := by
  cases f with
  | zero => rfl
  | succ f => simp only [parseValue, h]

theorem parseValue_skipWs (f : Nat) (s : List Char) :
    parseValue f (skipWs s) = parseValue f s :=
  parseValue_congr f (skipWs s) s (skipWs_idem s)

theorem parseItems_skipWs (f : Nat) (s : List Char) :
    parseItems f (skipWs s) = parseItems f s := by
  cases f with
  | zero => rfl
  | succ f => simp only [parseItems, parseValue_skipWs]

theorem parseFields_congr (f : Nat) (s1 s2 : List Char) (h : skipWs s1 = skipWs s2) :
    parseFields f s1 = parseFields f s2 := by
  cases f with
  | zero => rfl
  | succ f => simp only [parseFields, h]

theorem parseFields_skipWs (f : Nat) (s : List Char) :
    parseFields f (skipWs s) = parseFields f s :=
  parseFields_congr f (skipWs s) s (skipWs_idem s)

/-!
## Decimal numeral lemmas
-/

theorem digitsOf_eq (n : Nat) :
    digitsOf n = if n < 10 then [digitChar n]
      else digitsOf (n / 10) ++ [digitChar (n % 10)] := by
  rw [digitsOf]
  split <;> simp_all

theorem digitsOf_ne_nil (n : Nat) : digitsOf n ≠ [] := by
  rw [digitsOf_eq]
  split <;> simp

theorem digitsOf_all_digits (n : Nat) : ∀ c ∈ digitsOf n, c.isDigit = true := by
  induction n using Nat.strong_induction_on with
  | _ n ih =>
    rw [digitsOf_eq]
    by_cases h10 : n < 10
    · simp only [if_pos h10, List.mem_singleton]
      rintro c rfl
      exact digitChar_isDigit n h10
    · simp only [if_neg h10, List.mem_append, List.mem_singleton]
      rintro c (hc | rfl)
      · exact ih (n / 10) (by omega) c hc
      · exact digitChar_isDigit (n % 10) (by omega)

theorem natCharsAux_eq : ∀ (fuel n : Nat) (acc : List Char), n < fuel →
    natCharsAux fuel n acc = digitsOf n ++ acc
  | 0, n, _, h => absurd h (by omega)
  | fuel + 1, n, acc, h => by
    simp only [natCharsAux]
    by_cases h10 : n < 10
    · rw [if_pos h10, digitsOf_eq, if_pos h10]
      rfl
    · rw [if_neg h10, natCharsAux_eq fuel (n / 10) _ (by omega),
        digitsOf_eq n, if_neg h10]
      simp

theorem natChars_eq_digitsOf (n : Nat) : natChars n = digitsOf n := by
  rw [natChars, natCharsAux_eq (n + 1) n [] (by omega)]
  simp

theorem parseDigits_stop (acc : Nat) (rest : List Char) (h : headNotDigit rest) :
    parseDigits acc rest = (acc, rest) := by
  cases rest with
  | nil => rfl
  | cons c r =>
    simp only [headNotDigit] at h
    simp [parseDigits, h]

theorem parseDigits_digitsOf (n : Nat) : ∀ (acc : Nat) (rest : List Char),
    parseDigits acc (digitsOf n ++ rest) =
      parseDigits (acc * 10 ^ (digitsOf n).length + n) rest := by
  induction n using Nat.strong_induction_on with
  | _ n ih =>
    intro acc rest
    by_cases h10 : n < 10
    · rw [digitsOf_eq, if_pos h10]
      have hd : (digitChar n).isDigit = true := digitChar_isDigit n h10
      have ht : (digitChar n).toNat = 48 + n := digitChar_toNat n h10
      simp only [List.singleton_append, List.length_singleton, parseDigits, hd, if_pos,
        ht, pow_one, List.nil_append, show '0'.toNat = 48 from rfl]
      have harg : acc * 10 + (48 + n - 48) = acc * 10 + n := by omega
      rw [harg]
      rfl
    · rw [show digitsOf n ++ rest
          = digitsOf (n / 10) ++ (digitChar (n % 10) :: rest) by
        rw [digitsOf_eq n, if_neg h10]; simp]
      rw [ih (n / 10) (by omega)]
      have hd : (digitChar (n % 10)).isDigit = true := digitChar_isDigit (n % 10) (by omega)
      have ht : (digitChar (n % 10)).toNat = 48 + n % 10 := digitChar_toNat (n % 10) (by omega)
      simp only [parseDigits, hd, if_pos, ht, show '0'.toNat = 48 from rfl]
      have hlen : (digitsOf n).length = (digitsOf (n / 10)).length + 1 := by
        rw [digitsOf_eq n, if_neg h10]
        simp
      rw [hlen]
      have h1 : 48 + n % 10 - 48 = n % 10 := by omega
      have h2 : n / 10 * 10 + n % 10 = n := by omega
      have harg : (acc * 10 ^ (digitsOf (n / 10)).length + n / 10) * 10 + (48 + n % 10 - 48)
          = acc * 10 ^ ((digitsOf (n / 10)).length + 1) + n := by
        rw [h1, pow_succ]
        calc (acc * 10 ^ (digitsOf (n / 10)).length + n / 10) * 10 + n % 10
            = acc * (10 ^ (digitsOf (n / 10)).length * 10) + (n / 10 * 10 + n % 10) := by
              ring
          _ = acc * (10 ^ (digitsOf (n / 10)).length * 10) + n := by rw [h2]
      rw [harg]

theorem parseDigits_whole (n : Nat) (rest : List Char) (h : headNotDigit rest) :
    parseDigits 0 (digitsOf n ++ rest) = (n, rest) := by
  rw [parseDigits_digitsOf, parseDigits_stop _ _ h]
  simp

theorem parseNumber_intChars (n : Int) (rest : List Char) (h : headNotDigit rest) :
    parseNumber (intChars n ++ rest) = some (.num n, rest) := by
  rcases n with m | m
  · have hi : intChars (Int.ofNat m) = digitsOf m := by
      simp [intChars, natChars_eq_digitsOf]
    obtain ⟨d, ds, hds⟩ := List.exists_cons_of_ne_nil (digitsOf_ne_nil m)
    have hd : d.isDigit = true := digitsOf_all_digits m d (by rw [hds]; simp)
    have hnm : d ≠ '-' := digit_ne d '-' hd (by decide)
    rw [hi, hds, List.cons_append]
    simp only [parseNumber, if_neg hnm, hd, if_pos]
    rw [show d :: (ds ++ rest) = (d :: ds) ++ rest from rfl, ← hds, parseDigits_whole m rest h]
    simp
  · have hi : intChars (Int.negSucc m) = '-' :: digitsOf (m + 1) := by
      simp only [intChars, if_pos (Int.negSucc_lt_zero m)]
      rw [show (-(Int.negSucc m)).toNat = m + 1 by
        rw [Int.neg_negSucc]; exact Int.toNat_ofNat (m + 1), natChars_eq_digitsOf]
    obtain ⟨d, ds, hds⟩ := List.exists_cons_of_ne_nil (digitsOf_ne_nil (m + 1))
    have hd : d.isDigit = true := digitsOf_all_digits (m + 1) d (by rw [hds]; simp)
    rw [hi, List.cons_append, hds, List.cons_append]
    simp only [parseNumber, if_pos rfl, hd, if_pos]
    rw [show d :: (ds ++ rest) = (d :: ds) ++ rest from rfl, ← hds,
      parseDigits_whole (m + 1) rest h]
    simp [Int.negSucc_eq]

/-!
## String escape lemmas
-/

theorem parseStringRest_cons_raw (c : Char) (tail : List Char)
    (h1 : c ≠ '"') (h2 : c ≠ '\\') :
    parseStringRest (c :: tail) = (parseStringRest tail).map (fun p => (c :: p.1, p.2)) := by
  rw [parseStringRest.eq_def]
  simp [h1, h2]

theorem parseStringRest_cons_esc (e ec : Char) (tail : List Char)
    (he : escDecode e = some ec) (hu : e ≠ 'u') :
    parseStringRest ('\\' :: e :: tail) =
      (parseStringRest tail).map (fun p => (ec :: p.1, p.2)) := by
  rw [parseStringRest.eq_def]
  simp [hu, he]

theorem parseStringRest_cons_u00 (c : Char) (tail : List Char) (h : c.toNat < 32) :
    parseStringRest ('\\' :: 'u' :: '0' :: '0' :: hexDigitChar (c.toNat / 16)
        :: hexDigitChar (c.toNat % 16) :: tail)
      = (parseStringRest tail).map (fun p => (c :: p.1, p.2)) := by
  have hhi := hexDigitChar_parse (c.toNat / 16) (by omega)
  have hlo := hexDigitChar_parse (c.toNat % 16) (by omega)
  have hz : parseHexDigit '0' = some 0 := by decide
  simp only [parseStringRest, hhi, hlo, hz]
  rw [if_neg (by decide), if_pos (by decide), if_pos (by decide)]
  have hcode : ((0 * 16 + 0) * 16 + c.toNat / 16) * 16 + c.toNat % 16 = c.toNat := by omega
  rw [hcode, if_pos (Or.inl (by omega)), Char.ofNat_toNat]

theorem parseStringRest_escape : ∀ (s : List Char) (rest : List Char),
    parseStringRest (escapeString s ++ '"' :: rest) = some (s, rest)
  | [], rest => by
    rw [show escapeString [] ++ '"' :: rest = '"' :: rest from rfl, parseStringRest.eq_def]
    simp
  | c :: s', rest => by
    have ih := parseStringRest_escape s' rest
    simp only [escapeString, List.append_assoc]
    by_cases h1 : c = '"'
    · subst h1
      rw [show escapeChar '"' = ['\\', '"'] from rfl]
      rw [show (['\\', '"'] : List Char) ++ (escapeString s' ++ '"' :: rest)
          = '\\' :: '"' :: (escapeString s' ++ '"' :: rest) from rfl]
      rw [parseStringRest_cons_esc '"' '"' _ (by decide) (by decide), ih]
      rfl
    · by_cases h2 : c = '\\'
      · subst h2
        rw [show escapeChar '\\' = ['\\', '\\'] from rfl]
        rw [show (['\\', '\\'] : List Char) ++ (escapeString s' ++ '"' :: rest)
            = '\\' :: '\\' :: (escapeString s' ++ '"' :: rest) from rfl]
        rw [parseStringRest_cons_esc '\\' '\\' _ (by decide) (by decide), ih]
        rfl
      · by_cases h3 : c = Char.ofNat 8
        · subst h3
          rw [show escapeChar (Char.ofNat 8) = ['\\', 'b'] from rfl]
          rw [show (['\\', 'b'] : List Char) ++ (escapeString s' ++ '"' :: rest)
              = '\\' :: 'b' :: (escapeString s' ++ '"' :: rest) from rfl]
          rw [parseStringRest_cons_esc 'b' (Char.ofNat 8) _ (by decide) (by decide), ih]
          rfl
        · by_cases h4 : c = Char.ofNat 12
          · subst h4
            rw [show escapeChar (Char.ofNat 12) = ['\\', 'f'] from rfl]
            rw [show (['\\', 'f'] : List Char) ++ (escapeString s' ++ '"' :: rest)
                = '\\' :: 'f' :: (escapeString s' ++ '"' :: rest) from rfl]
            rw [parseStringRest_cons_esc 'f' (Char.ofNat 12) _ (by decide) (by decide), ih]
            rfl
          · by_cases h5 : c = '\n'
            · subst h5
              rw [show escapeChar '\n' = ['\\', 'n'] from rfl]
              rw [show (['\\', 'n'] : List Char) ++ (escapeString s' ++ '"' :: rest)
                  = '\\' :: 'n' :: (escapeString s' ++ '"' :: rest) from rfl]
              rw [parseStringRest_cons_esc 'n' '\n' _ (by decide) (by decide), ih]
              rfl
            · by_cases h6 : c = '\r'
              · subst h6
                rw [show escapeChar '\r' = ['\\', 'r'] from rfl]
                rw [show (['\\', 'r'] : List Char) ++ (escapeString s' ++ '"' :: rest)
                    = '\\' :: 'r' :: (escapeString s' ++ '"' :: rest) from rfl]
                rw [parseStringRest_cons_esc 'r' '\r' _ (by decide) (by decide), ih]
                rfl
              · by_cases h7 : c = '\t'
                · subst h7
                  rw [show escapeChar '\t' = ['\\', 't'] from rfl]
                  rw [show (['\\', 't'] : List Char) ++ (escapeString s' ++ '"' :: rest)
                      = '\\' :: 't' :: (escapeString s' ++ '"' :: rest) from rfl]
                  rw [parseStringRest_cons_esc 't' '\t' _ (by decide) (by decide), ih]
                  rfl
                · by_cases h8 : c.toNat < 32
                  · rw [show escapeChar c = ['\\', 'u', '0', '0',
                          hexDigitChar (c.toNat / 16), hexDigitChar (c.toNat % 16)] by
                      simp [escapeChar, h1, h2, h3, h4, h5, h6, h7, h8]]
                    rw [show (['\\', 'u', '0', '0', hexDigitChar (c.toNat / 16),
                          hexDigitChar (c.toNat % 16)] : List Char)
                          ++ (escapeString s' ++ '"' :: rest)
                        = '\\' :: 'u' :: '0' :: '0' :: hexDigitChar (c.toNat / 16)
                          :: hexDigitChar (c.toNat % 16)
                          :: (escapeString s' ++ '"' :: rest) from rfl]
                    rw [parseStringRest_cons_u00 c _ h8, ih]
                    rfl
                  · rw [show escapeChar c = [c] by
                      simp [escapeChar, h1, h2, h3, h4, h5, h6, h7, h8]]
                    rw [show ([c] : List Char) ++ (escapeString s' ++ '"' :: rest)
                        = c :: (escapeString s' ++ '"' :: rest) from rfl]
                    rw [parseStringRest_cons_raw c _ h1 h2, ih]
                    rfl

/-!
## Object reconstruction lemmas
-/

theorem objMem_iff_mem_keys (k : List Char) : ∀ (o : JsonObj),
    objMem k o = true ↔ k ∈ objKeys o
  | .nil => by simp [objMem, objKeys]
  | .cons k2 v t => by
    simp [objMem, objKeys, objMem_iff_mem_keys k t]

theorem objConcat_nil_right : ∀ (o : JsonObj), objConcat o .nil = o
  | .nil => rfl
  | .cons k v t => by simp [objConcat, objConcat_nil_right t]

theorem objConcat_assoc : ∀ (a b c : JsonObj),
    objConcat (objConcat a b) c = objConcat a (objConcat b c)
  | .nil, _, _ => rfl
  | .cons k v t, b, c => by simp [objConcat, objConcat_assoc t b c]

theorem objAppend_eq_concat : ∀ (o : JsonObj) (k : List Char) (v : JsonValue),
    objAppend o k v = objConcat o (.cons k v .nil)
  | .nil, _, _ => rfl
  | .cons k2 v2 t, k, v => by simp [objAppend, objConcat, objAppend_eq_concat t k v]

theorem objMem_concat (k : List Char) : ∀ (a b : JsonObj),
    objMem k (objConcat a b) = (objMem k a || objMem k b)
  | .nil, b => by simp [objConcat, objMem]
  | .cons k2 v t, b => by
    simp [objConcat, objMem, objMem_concat k t b, Bool.or_assoc]

theorem mkObject_fresh : ∀ (o : JsonObj) (acc : JsonObj),
    objNodupKeys o = true →
    (∀ k ∈ objKeys o, objMem k acc = false) →
    mkObject (objPairs o) acc = objConcat acc o
  | .nil, acc, _, _ => by simp [objPairs, mkObject, objConcat_nil_right]
  | .cons k v t, acc, hnodup, hfresh => by
    have hn : objMem k t = false ∧ objNodupKeys t = true := by
      simpa [objNodupKeys] using hnodup
    have hk : objMem k acc = false := hfresh k (by simp [objKeys])
    have step : objInsert acc k v = objConcat acc (.cons k v .nil) := by
      rw [objInsert, if_neg (by simp [hk]), objAppend_eq_concat]
    simp only [objPairs, mkObject, step]
    rw [mkObject_fresh t (objConcat acc (.cons k v .nil)) hn.2 ?fresh]
    case fresh =>
      intro k2 hk2
      rw [objMem_concat]
      have h1 : objMem k2 acc = false := hfresh k2 (by simp [objKeys, hk2])
      have h2 : objMem k2 (JsonObj.cons k v .nil) = false := by
        have hne : k2 ≠ k := by
          intro he
          subst he
          rw [(objMem_iff_mem_keys k2 t).2 hk2] at hn
          exact absurd hn.1 (by simp)
        simp [objMem, hne]
      simp [h1, h2]
    rw [objConcat_assoc]
    rfl

theorem mkObject_objPairs (o : JsonObj) (h : objNodupKeys o = true) :
    mkObject (objPairs o) .nil = o := by
  rw [mkObject_fresh o .nil h (fun k _ => rfl)]
  rfl

/-!
## Fuel lemmas
-/

theorem fuelNeed_pos : ∀ (v : JsonValue), 1 ≤ fuelNeed v
  | .null => by simp [fuelNeed]
  | .bool _ => by simp [fuelNeed]
  | .num _ => by simp [fuelNeed]
  | .str _ => by simp [fuelNeed]
  | .arr _ => by simp [fuelNeed]
  | .obj _ => by simp [fuelNeed]

theorem intChars_ne_nil (n : Int) : intChars n ≠ [] := by
  rw [intChars]
  split
  · simp
  · rw [natChars_eq_digitsOf]
    exact digitsOf_ne_nil _

theorem skipWs_cons_ws (c : Char) (s : List Char) (h : isWsChar c = true) :
    skipWs (c :: s) = skipWs s := by
  simp [skipWs, h]

theorem parseItems_congr (f : Nat) (s1 s2 : List Char) (h : skipWs s1 = skipWs s2) :
    parseItems f s1 = parseItems f s2 := by
  cases f with
  | zero => rfl
  | succ f => simp only [parseItems, parseValue_congr f s1 s2 h]

/-- The first character of a pretty-printed value: never whitespace and never
a closing delimiter or separator. -/
theorem prettyVal_head (d : Nat) (v : JsonValue) :
    ∃ c cs, prettyVal d v = c :: cs
      ∧ isWsChar c = false ∧ c ≠ ']' ∧ c ≠ '}' ∧ c ≠ ',' := by
  cases v with
  | null => exact ⟨'n', _, rfl, by decide, by decide, by decide, by decide⟩
  | bool b =>
    cases b with
    | true => exact ⟨'t', _, rfl, by decide, by decide, by decide, by decide⟩
    | false => exact ⟨'f', _, rfl, by decide, by decide, by decide, by decide⟩
  | num n =>
    obtain ⟨c, cs, hcs⟩ := List.exists_cons_of_ne_nil (intChars_ne_nil n)
    refine ⟨c, cs, hcs, ?_⟩
    rw [intChars] at hcs
    split at hcs
    · have hc : c = '-' := by injection hcs with h1 _; exact h1.symm
      subst hc
      exact ⟨by decide, by decide, by decide, by decide⟩
    · rw [natChars_eq_digitsOf] at hcs
      have hd : c.isDigit = true := digitsOf_all_digits _ c (by rw [hcs]; simp)
      exact ⟨digit_not_ws c hd, digit_ne c ']' hd (by decide),
        digit_ne c '}' hd (by decide), digit_ne c ',' hd (by decide)⟩
  | str s => exact ⟨'"', _, rfl, by decide, by decide, by decide, by decide⟩
  | arr a =>
    cases a with
    | nil => exact ⟨'[', _, rfl, by decide, by decide, by decide, by decide⟩
    | cons h t => exact ⟨'[', _, rfl, by decide, by decide, by decide, by decide⟩
  | obj o =>
    cases o with
    | nil => exact ⟨'{', _, rfl, by decide, by decide, by decide, by decide⟩
    | cons k v t => exact ⟨'{', _, rfl, by decide, by decide, by decide, by decide⟩

theorem headNotDigit_cons (c : Char) (h : c.isDigit = false) (x : List Char) :
    headNotDigit (c :: x) := h

theorem isWsList_singleton (c : Char) (h : isWsChar c = true) : IsWsList [c] := by
  intro x hx
  simp only [List.mem_singleton] at hx
  rw [hx]
  exact h

theorem skipWs_entry (w : List Char) (hw : IsWsList w) (c : Char) (hc : isWsChar c = false)
    (z : List Char) : skipWs (w ++ (c :: z)) = c :: z := by
  rw [skipWs_drop_ws w hw, skipWs_not_ws c z hc]

/-- First character after whitespace of a printed array's item list. -/
theorem skipWs_prettyItems (d : Nat) (h : JsonValue) (t : JsonArr) (tail : List Char) :
    ∃ c z, skipWs (prettyItems d (.cons h t) ++ tail) = c :: z
      ∧ isWsChar c = false ∧ c ≠ ']' ∧ c ≠ '}' := by
  obtain ⟨c, cs, hc, hws, hbr, hbc, _⟩ := prettyVal_head d h
  cases t with
  | nil =>
    refine ⟨c, cs ++ tail, ?_, hws, hbr, hbc⟩
    rw [show prettyItems d (.cons h .nil) ++ tail
        = indentChars d ++ (prettyVal d h ++ tail) by
      simp [prettyItems, List.append_assoc]]
    rw [skipWs_drop_ws _ (indentChars_ws d), hc, List.cons_append,
      skipWs_not_ws _ _ hws]
  | cons h2 t2 =>
    refine ⟨c, cs ++ (',' :: '\n' :: (prettyItems d (.cons h2 t2) ++ tail)), ?_, hws, hbr, hbc⟩
    rw [show prettyItems d (.cons h (.cons h2 t2)) ++ tail
        = indentChars d ++ (prettyVal d h
            ++ (',' :: '\n' :: (prettyItems d (.cons h2 t2) ++ tail))) by
      simp [prettyItems, List.append_assoc]]
    rw [skipWs_drop_ws _ (indentChars_ws d), hc, List.cons_append,
      skipWs_not_ws _ _ hws]

/-- First character after whitespace of a printed object's field list. -/
theorem skipWs_prettyFields (d : Nat) (k : List Char) (v : JsonValue) (t : JsonObj)
    (tail : List Char) :
    ∃ z, skipWs (prettyFields d (.cons k v t) ++ tail) = '"' :: z := by
  cases t with
  | nil =>
    refine ⟨(escapeString k ++ ('"' :: (':' :: (' ' :: prettyVal d v)))) ++ tail, ?_⟩
    rw [show prettyFields d (.cons k v .nil) ++ tail
        = indentChars d ++ ('"' :: ((escapeString k
            ++ ('"' :: (':' :: (' ' :: prettyVal d v)))) ++ tail)) by
      simp [prettyFields, List.append_assoc]]
    rw [skipWs_drop_ws _ (indentChars_ws d), skipWs_not_ws _ _ (by decide)]
  | cons k2 v2 t2 =>
    refine ⟨(escapeString k ++ ('"' :: (':' :: (' ' :: prettyVal d v))))
        ++ (',' :: '\n' :: (prettyFields d (.cons k2 v2 t2) ++ tail)), ?_⟩
    rw [show prettyFields d (.cons k v (.cons k2 v2 t2)) ++ tail
        = indentChars d ++ ('"' :: ((escapeString k
            ++ ('"' :: (':' :: (' ' :: prettyVal d v))))
            ++ (',' :: '\n' :: (prettyFields d (.cons k2 v2 t2) ++ tail)))) by
      simp [prettyFields, List.append_assoc]]
    rw [skipWs_drop_ws _ (indentChars_ws d), skipWs_not_ws _ _ (by decide)]

/-- Skipping the newline-plus-indentation before a closing bracket. -/
theorem skipWs_close (d : Nat) (c : Char) (hc : isWsChar c = false) (rest : List Char) :
    skipWs ('\n' :: (indentChars d ++ (c :: rest))) = c :: rest := by
  rw [skipWs_cons_ws _ _ (by decide), skipWs_drop_ws _ (indentChars_ws d),
    skipWs_not_ws _ _ hc]

mutual

/-- Parsing the pretty-printed form of a well-formed value (preceded by any
whitespace and followed by anything that does not begin with a digit)
recovers exactly the value. -/
theorem parse_pretty_val : ∀ (v : JsonValue) (d : Nat) (w rest : List Char) (fuel : Nat),
    wfVal v = true → IsWsList w → fuelNeed v ≤ fuel → headNotDigit rest →
    parseValue fuel (w ++ (prettyVal d v ++ rest)) = some (v, rest)
  | v, d, w, rest, 0, hwf, hw, hfuel, hrest =>
    absurd (le_trans (fuelNeed_pos v) hfuel) (by omega)
  | .null, d, w, rest, f + 1, hwf, hw, hfuel, hrest => by
      have hskip : skipWs (w ++ (prettyVal d .null ++ rest))
          = 'n' :: ('u' :: ('l' :: ('l' :: rest))) :=
        skipWs_entry w hw 'n' (by decide) _
      simp only [parseValue, hskip]
      simp [expectChars]
  | .bool true, d, w, rest, f + 1, hwf, hw, hfuel, hrest => by
        have hskip : skipWs (w ++ (prettyVal d (.bool true) ++ rest))
            = 't' :: ('r' :: ('u' :: ('e' :: rest))) :=
          skipWs_entry w hw 't' (by decide) _
        simp only [parseValue, hskip]
        simp [expectChars]
  | .bool false, d, w, rest, f + 1, hwf, hw, hfuel, hrest => by
        have hskip : skipWs (w ++ (prettyVal d (.bool false) ++ rest))
            = 'f' :: ('a' :: ('l' :: ('s' :: ('e' :: rest)))) :=
          skipWs_entry w hw 'f' (by decide) _
        simp only [parseValue, hskip]
        simp [expectChars]
  | .num n, d, w, rest, f + 1, hwf, hw, hfuel, hrest => by
      obtain ⟨c, cs, hcs⟩ := List.exists_cons_of_ne_nil (intChars_ne_nil n)
      have hchar : c = '-' ∨ c.isDigit = true := by
        rw [intChars] at hcs
        split at hcs
        · left
          injection hcs with h1 _
          exact h1.symm
        · right
          rw [natChars_eq_digitsOf] at hcs
          exact digitsOf_all_digits _ c (by rw [hcs]; simp)
      have hfacts : isWsChar c = false ∧ c ≠ 'n' ∧ c ≠ 't' ∧ c ≠ 'f' ∧ c ≠ '"'
          ∧ c ≠ '[' ∧ c ≠ '{' := by
        rcases hchar with hc | hc
        · subst hc
          exact ⟨by decide, by decide, by decide, by decide, by decide, by decide, by decide⟩
        · exact ⟨digit_not_ws c hc, digit_ne c 'n' hc (by decide),
            digit_ne c 't' hc (by decide), digit_ne c 'f' hc (by decide),
            digit_ne c '"' hc (by decide), digit_ne c '[' hc (by decide),
            digit_ne c '{' hc (by decide)⟩
      have hskip : skipWs (w ++ (prettyVal d (.num n) ++ rest)) = c :: (cs ++ rest) := by
        rw [show prettyVal d (.num n) ++ rest = c :: (cs ++ rest) by
          rw [show prettyVal d (.num n) = intChars n from rfl, hcs]
          rfl]
        exact skipWs_entry w hw c hfacts.1 _
      simp only [parseValue, hskip]
      rw [if_neg hfacts.2.1, if_neg hfacts.2.2.1, if_neg hfacts.2.2.2.1,
        if_neg hfacts.2.2.2.2.1, if_neg hfacts.2.2.2.2.2.1, if_neg hfacts.2.2.2.2.2.2,
        if_pos hchar]
      rw [show c :: (cs ++ rest) = (c :: cs) ++ rest from rfl, ← hcs]
      exact parseNumber_intChars n rest hrest
  | .str s, d, w, rest, f + 1, hwf, hw, hfuel, hrest => by
      have hskip : skipWs (w ++ (prettyVal d (.str s) ++ rest))
          = '"' :: (escapeString s ++ ('"' :: rest)) := by
        rw [show prettyVal d (.str s) ++ rest = '"' :: (escapeString s ++ ('"' :: rest)) by
          simp [prettyVal]]
        exact skipWs_entry w hw '"' (by decide) _
      simp only [parseValue, hskip]
      simp [parseStringRest_escape s rest]
  | .arr .nil, d, w, rest, f + 1, hwf, hw, hfuel, hrest => by
        have hskip : skipWs (w ++ (prettyVal d (.arr .nil) ++ rest))
            = '[' :: (']' :: rest) :=
          skipWs_entry w hw '[' (by decide) _
        have hin : skipWs (']' :: rest) = ']' :: rest := skipWs_not_ws _ _ (by decide)
        simp only [parseValue, hskip]
        simp [hin]
  | .arr (.cons h t), d, w, rest, f + 1, hwf, hw, hfuel, hrest => by
        have hwf' : wfArr (.cons h t) = true := by simpa [wfVal] using hwf
        have hfa : fuelNeedArr (.cons h t) ≤ f := by
          simp only [fuelNeed] at hfuel
          omega
        have hskip : skipWs (w ++ (prettyVal d (.arr (.cons h t)) ++ rest))
            = '[' :: ('\n' :: (prettyItems (d + 1) (.cons h t)
                ++ ('\n' :: (indentChars d ++ (']' :: rest))))) := by
          rw [show prettyVal d (.arr (.cons h t)) ++ rest
              = '[' :: ('\n' :: (prettyItems (d + 1) (.cons h t)
                  ++ ('\n' :: (indentChars d ++ (']' :: rest))))) by
            simp [prettyVal, List.append_assoc]]
          exact skipWs_entry w hw '[' (by decide) _
        obtain ⟨c, z, hcz, hws, hbr, _⟩ :=
          skipWs_prettyItems (d + 1) h t ('\n' :: (indentChars d ++ (']' :: rest)))
        have hin : skipWs ('\n' :: (prettyItems (d + 1) (.cons h t)
            ++ ('\n' :: (indentChars d ++ (']' :: rest))))) = c :: z := by
          rw [skipWs_cons_ws _ _ (by decide), hcz]
        have hrec : parseItems f (c :: z) = some (.cons h t, rest) := by
          rw [show (c :: z) = skipWs (prettyItems (d + 1) (.cons h t)
              ++ ('\n' :: (indentChars d ++ (']' :: rest)))) from hcz.symm,
            parseItems_skipWs]
          exact parse_pretty_items h t d rest f hwf' hfa
        simp only [parseValue, hskip]
        simp [hin, hbr, hrec]
  | .obj .nil, d, w, rest, f + 1, hwf, hw, hfuel, hrest => by
        have hskip : skipWs (w ++ (prettyVal d (.obj .nil) ++ rest))
            = '{' :: ('}' :: rest) :=
          skipWs_entry w hw '{' (by decide) _
        have hin : skipWs ('}' :: rest) = '}' :: rest := skipWs_not_ws _ _ (by decide)
        simp only [parseValue, hskip]
        simp [hin]
  | .obj (.cons k v t), d, w, rest, f + 1, hwf, hw, hfuel, hrest => by
        have hwf' : objNodupKeys (.cons k v t) = true ∧ wfObj (.cons k v t) = true := by
          simpa [wfVal] using hwf
        have hfo : fuelNeedObj (.cons k v t) ≤ f := by
          simp only [fuelNeed] at hfuel
          omega
        have hskip : skipWs (w ++ (prettyVal d (.obj (.cons k v t)) ++ rest))
            = '{' :: ('\n' :: (prettyFields (d + 1) (.cons k v t)
                ++ ('\n' :: (indentChars d ++ ('}' :: rest))))) := by
          rw [show prettyVal d (.obj (.cons k v t)) ++ rest
              = '{' :: ('\n' :: (prettyFields (d + 1) (.cons k v t)
                  ++ ('\n' :: (indentChars d ++ ('}' :: rest))))) by
            simp [prettyVal, List.append_assoc]]
          exact skipWs_entry w hw '{' (by decide) _
        obtain ⟨z, hz⟩ :=
          skipWs_prettyFields (d + 1) k v t ('\n' :: (indentChars d ++ ('}' :: rest)))
        have hin : skipWs ('\n' :: (prettyFields (d + 1) (.cons k v t)
            ++ ('\n' :: (indentChars d ++ ('}' :: rest))))) = '"' :: z := by
          rw [skipWs_cons_ws _ _ (by decide), hz]
        have hrec : parseFields f ('"' :: z) = some (objPairs (.cons k v t), rest) := by
          rw [show ('"' :: z) = skipWs (prettyFields (d + 1) (.cons k v t)
              ++ ('\n' :: (indentChars d ++ ('}' :: rest)))) from hz.symm,
            parseFields_skipWs]
          exact parse_pretty_fields k v t d rest f hwf'.2 hfo
        have hmk : mkObject (objPairs (.cons k v t)) .nil = .cons k v t :=
          mkObject_objPairs _ hwf'.1
        simp only [parseValue, hskip]
        simp [hin, hrec, hmk]

termination_by v _ _ _ _ _ _ _ _ => sizeOf v
decreasing_by all_goals (simp_wf; omega)

/-- Parsing the printed items of a non-empty array up to the closing `]`. -/
theorem parse_pretty_items : ∀ (h : JsonValue) (t : JsonArr) (d : Nat) (rest : List Char)
    (fuel : Nat), wfArr (.cons h t) = true → fuelNeedArr (.cons h t) ≤ fuel →
    parseItems fuel (prettyItems (d + 1) (.cons h t)
        ++ ('\n' :: (indentChars d ++ (']' :: rest)))) = some (.cons h t, rest)
  | h, t, d, rest, 0, hwf, hfuel => absurd hfuel (by simp [fuelNeedArr])
  | h, .nil, d, rest, f + 1, hwf, hfuel => by
      have hwf' : wfVal h = true ∧ wfArr JsonArr.nil = true := by simpa [wfArr] using hwf
      have hfh : fuelNeed h ≤ f := by
        simp only [fuelNeedArr] at hfuel
        omega
      have hform : prettyItems (d + 1) (.cons h .nil)
            ++ ('\n' :: (indentChars d ++ (']' :: rest)))
          = indentChars (d + 1) ++ (prettyVal (d + 1) h
              ++ ('\n' :: (indentChars d ++ (']' :: rest)))) := by
        simp [prettyItems, List.append_assoc]
      have hval : parseValue f (indentChars (d + 1) ++ (prettyVal (d + 1) h
          ++ ('\n' :: (indentChars d ++ (']' :: rest)))))
          = some (h, '\n' :: (indentChars d ++ (']' :: rest))) :=
        parse_pretty_val h (d + 1) (indentChars (d + 1)) _ f hwf'.1 (indentChars_ws _)
          hfh (headNotDigit_cons '\n' (by decide) _)
      have hcl : skipWs ('\n' :: (indentChars d ++ (']' :: rest))) = ']' :: rest :=
        skipWs_close d ']' (by decide) rest
      rw [hform]
      simp only [parseItems]
      simp [hval, hcl]
  | h, .cons h2 t2, d, rest, f + 1, hwf, hfuel => by
      have hwf' : wfVal h = true ∧ wfArr (.cons h2 t2) = true := by simpa [wfArr] using hwf
      have hfh : fuelNeed h ≤ f := by
        simp only [fuelNeedArr] at hfuel
        omega
      have hft : fuelNeedArr (.cons h2 t2) ≤ f := by
        simp only [fuelNeedArr] at hfuel ⊢
        omega
      have hform : prettyItems (d + 1) (.cons h (.cons h2 t2))
            ++ ('\n' :: (indentChars d ++ (']' :: rest)))
          = indentChars (d + 1) ++ (prettyVal (d + 1) h
              ++ (',' :: ('\n' :: (prettyItems (d + 1) (.cons h2 t2)
                ++ ('\n' :: (indentChars d ++ (']' :: rest))))))) := by
        simp [prettyItems, List.append_assoc]
      have hval : parseValue f (indentChars (d + 1) ++ (prettyVal (d + 1) h
          ++ (',' :: ('\n' :: (prettyItems (d + 1) (.cons h2 t2)
            ++ ('\n' :: (indentChars d ++ (']' :: rest))))))))
          = some (h, ',' :: ('\n' :: (prettyItems (d + 1) (.cons h2 t2)
              ++ ('\n' :: (indentChars d ++ (']' :: rest)))))) :=
        parse_pretty_val h (d + 1) (indentChars (d + 1)) _ f hwf'.1 (indentChars_ws _)
          hfh (headNotDigit_cons ',' (by decide) _)
      have hsep : skipWs (',' :: ('\n' :: (prettyItems (d + 1) (.cons h2 t2)
          ++ ('\n' :: (indentChars d ++ (']' :: rest))))))
          = ',' :: ('\n' :: (prettyItems (d + 1) (.cons h2 t2)
              ++ ('\n' :: (indentChars d ++ (']' :: rest))))) :=
        skipWs_not_ws _ _ (by decide)
      have hrec : parseItems f ('\n' :: (prettyItems (d + 1) (.cons h2 t2)
          ++ ('\n' :: (indentChars d ++ (']' :: rest)))))
          = some (.cons h2 t2, rest) := by
        rw [parseItems_congr f _ (prettyItems (d + 1) (.cons h2 t2)
            ++ ('\n' :: (indentChars d ++ (']' :: rest))))
          (skipWs_cons_ws _ _ (by decide))]
        exact parse_pretty_items h2 t2 d rest f hwf'.2 hft
      rw [hform]
      simp only [parseItems]
      simp [hval, hsep, hrec]

termination_by h t _ _ _ _ _ => sizeOf h + sizeOf t + 1
decreasing_by all_goals (simp_wf; omega)

/-- Parsing the printed fields of a non-empty object up to the closing `}`. -/
theorem parse_pretty_fields : ∀ (k : List Char) (v : JsonValue) (t : JsonObj) (d : Nat)
    (rest : List Char) (fuel : Nat), wfObj (.cons k v t) = true →
    fuelNeedObj (.cons k v t) ≤ fuel →
    parseFields fuel (prettyFields (d + 1) (.cons k v t)
        ++ ('\n' :: (indentChars d ++ ('}' :: rest))))
      = some (objPairs (.cons k v t), rest)
  | k, v, t, d, rest, 0, hwf, hfuel => absurd hfuel (by simp [fuelNeedObj])
  | k, v, .nil, d, rest, f + 1, hwf, hfuel => by
      have hwf' : wfVal v = true ∧ wfObj JsonObj.nil = true := by simpa [wfObj] using hwf
      have hfv : fuelNeed v ≤ f := by
        simp only [fuelNeedObj] at hfuel
        omega
      have hform : prettyFields (d + 1) (.cons k v .nil)
            ++ ('\n' :: (indentChars d ++ ('}' :: rest)))
          = indentChars (d + 1) ++ ('"' :: (escapeString k
              ++ ('"' :: (':' :: (' ' :: (prettyVal (d + 1) v
                ++ ('\n' :: (indentChars d ++ ('}' :: rest))))))))) := by
        simp [prettyFields, List.append_assoc]
      have hstr : parseStringRest (escapeString k
          ++ ('"' :: (':' :: (' ' :: (prettyVal (d + 1) v
            ++ ('\n' :: (indentChars d ++ ('}' :: rest))))))))
          = some (k, ':' :: (' ' :: (prettyVal (d + 1) v
              ++ ('\n' :: (indentChars d ++ ('}' :: rest)))))) :=
        parseStringRest_escape k _
      have hval : parseValue f (' ' :: (prettyVal (d + 1) v
          ++ ('\n' :: (indentChars d ++ ('}' :: rest)))))
          = some (v, '\n' :: (indentChars d ++ ('}' :: rest))) := by
        rw [show (' ' :: (prettyVal (d + 1) v
            ++ ('\n' :: (indentChars d ++ ('}' :: rest)))))
            = [' '] ++ (prettyVal (d + 1) v
              ++ ('\n' :: (indentChars d ++ ('}' :: rest)))) from rfl]
        exact parse_pretty_val v (d + 1) [' '] _ f hwf'.1
          (isWsList_singleton ' ' (by decide)) hfv (headNotDigit_cons '\n' (by decide) _)
      have hcl : skipWs ('\n' :: (indentChars d ++ ('}' :: rest))) = '}' :: rest :=
        skipWs_close d '}' (by decide) rest
      have hcolon : skipWs (':' :: (' ' :: (prettyVal (d + 1) v
          ++ ('\n' :: (indentChars d ++ ('}' :: rest))))))
          = ':' :: (' ' :: (prettyVal (d + 1) v
              ++ ('\n' :: (indentChars d ++ ('}' :: rest))))) :=
        skipWs_not_ws _ _ (by decide)
      rw [hform]
      simp only [parseFields]
      rw [skipWs_drop_ws _ (indentChars_ws (d + 1)), skipWs_not_ws _ _ (by decide)]
      simp [hstr, hcolon, hval, hcl, objPairs]
  | k, v, .cons k2 v2 t2, d, rest, f + 1, hwf, hfuel => by
      have hwf' : wfVal v = true ∧ wfObj (.cons k2 v2 t2) = true := by simpa [wfObj] using hwf
      have hfv : fuelNeed v ≤ f := by
        simp only [fuelNeedObj] at hfuel
        omega
      have hft : fuelNeedObj (.cons k2 v2 t2) ≤ f := by
        simp only [fuelNeedObj] at hfuel ⊢
        omega
      have hform : prettyFields (d + 1) (.cons k v (.cons k2 v2 t2))
            ++ ('\n' :: (indentChars d ++ ('}' :: rest)))
          = indentChars (d + 1) ++ ('"' :: (escapeString k
              ++ ('"' :: (':' :: (' ' :: (prettyVal (d + 1) v
                ++ (',' :: ('\n' :: (prettyFields (d + 1) (.cons k2 v2 t2)
                  ++ ('\n' :: (indentChars d ++ ('}' :: rest)))))))))))) := by
        simp [prettyFields, List.append_assoc]
      have hstr : parseStringRest (escapeString k
          ++ ('"' :: (':' :: (' ' :: (prettyVal (d + 1) v
            ++ (',' :: ('\n' :: (prettyFields (d + 1) (.cons k2 v2 t2)
              ++ ('\n' :: (indentChars d ++ ('}' :: rest)))))))))))
          = some (k, ':' :: (' ' :: (prettyVal (d + 1) v
              ++ (',' :: ('\n' :: (prettyFields (d + 1) (.cons k2 v2 t2)
                ++ ('\n' :: (indentChars d ++ ('}' :: rest))))))))) :=
        parseStringRest_escape k _
      have hval : parseValue f (' ' :: (prettyVal (d + 1) v
          ++ (',' :: ('\n' :: (prettyFields (d + 1) (.cons k2 v2 t2)
            ++ ('\n' :: (indentChars d ++ ('}' :: rest))))))))
          = some (v, ',' :: ('\n' :: (prettyFields (d + 1) (.cons k2 v2 t2)
              ++ ('\n' :: (indentChars d ++ ('}' :: rest)))))) := by
        rw [show (' ' :: (prettyVal (d + 1) v
            ++ (',' :: ('\n' :: (prettyFields (d + 1) (.cons k2 v2 t2)
              ++ ('\n' :: (indentChars d ++ ('}' :: rest))))))))
            = [' '] ++ (prettyVal (d + 1) v
              ++ (',' :: ('\n' :: (prettyFields (d + 1) (.cons k2 v2 t2)
                ++ ('\n' :: (indentChars d ++ ('}' :: rest))))))) from rfl]
        exact parse_pretty_val v (d + 1) [' '] _ f hwf'.1
          (isWsList_singleton ' ' (by decide)) hfv (headNotDigit_cons ',' (by decide) _)
      have hrec : parseFields f ('\n' :: (prettyFields (d + 1) (.cons k2 v2 t2)
          ++ ('\n' :: (indentChars d ++ ('}' :: rest)))))
          = some (objPairs (.cons k2 v2 t2), rest) := by
        rw [parseFields_congr f _ (prettyFields (d + 1) (.cons k2 v2 t2)
            ++ ('\n' :: (indentChars d ++ ('}' :: rest))))
          (skipWs_cons_ws _ _ (by decide))]
        exact parse_pretty_fields k2 v2 t2 d rest f hwf'.2 hft
      have hcolon : skipWs (':' :: (' ' :: (prettyVal (d + 1) v
          ++ (',' :: ('\n' :: (prettyFields (d + 1) (.cons k2 v2 t2)
            ++ ('\n' :: (indentChars d ++ ('}' :: rest)))))))))
          = ':' :: (' ' :: (prettyVal (d + 1) v
              ++ (',' :: ('\n' :: (prettyFields (d + 1) (.cons k2 v2 t2)
                ++ ('\n' :: (indentChars d ++ ('}' :: rest)))))))) :=
        skipWs_not_ws _ _ (by decide)
      have hsep : skipWs (',' :: ('\n' :: (prettyFields (d + 1) (.cons k2 v2 t2)
          ++ ('\n' :: (indentChars d ++ ('}' :: rest))))))
          = ',' :: ('\n' :: (prettyFields (d + 1) (.cons k2 v2 t2)
              ++ ('\n' :: (indentChars d ++ ('}' :: rest))))) :=
        skipWs_not_ws _ _ (by decide)
      rw [hform]
      simp only [parseFields]
      rw [skipWs_drop_ws _ (indentChars_ws (d + 1)), skipWs_not_ws _ _ (by decide)]
      simp [hstr, hcolon, hval, hsep, hrec, objPairs]
termination_by _ v t _ _ _ _ _ => sizeOf v + sizeOf t + 1
decreasing_by all_goals (simp_wf; omega)

end

/-!
## Fuel is covered by the printed length
-/

mutual

/-- The fuel needed to parse a value is at most its printed length. -/
theorem fuelNeed_le_len : ∀ (v : JsonValue) (d : Nat),
    fuelNeed v ≤ (prettyVal d v).length
  | .null, _ => by simp [fuelNeed, prettyVal]
  | .bool true, _ => by simp [fuelNeed, prettyVal]
  | .bool false, _ => by simp [fuelNeed, prettyVal]
  | .num n, d => by
    have h := List.length_pos.2 (intChars_ne_nil n)
    simp only [fuelNeed, prettyVal]
    omega
  | .str s, _ => by simp [fuelNeed, prettyVal]
  | .arr .nil, _ => by simp [fuelNeed, fuelNeedArr, prettyVal]
  | .arr (.cons h t), d => by
    have ha := fuelNeedArr_le_len (.cons h t) (d + 1)
    simp only [fuelNeed, prettyVal, List.length_cons, List.length_append]
    omega
  | .obj .nil, _ => by simp [fuelNeed, fuelNeedObj, prettyVal]
  | .obj (.cons k v t), d => by
    have ho := fuelNeedObj_le_len k v t (d + 1)
    simp only [fuelNeed, prettyVal, List.length_cons, List.length_append]
    omega
termination_by v _ => sizeOf v

/-- The fuel needed to parse the item list is at most its length plus one. -/
theorem fuelNeedArr_le_len : ∀ (a : JsonArr) (d : Nat),
    fuelNeedArr a ≤ (prettyItems d a).length + 1
  | .nil, _ => by simp [fuelNeedArr]
  | .cons h .nil, d => by
    have hv := fuelNeed_le_len h d
    simp only [fuelNeedArr, fuelNeedArr.eq_1, prettyItems, List.length_append]
    omega
  | .cons h (.cons h2 t2), d => by
    have hv := fuelNeed_le_len h d
    have ht := fuelNeedArr_le_len (.cons h2 t2) d
    rw [show fuelNeedArr (.cons h (.cons h2 t2))
        = 1 + max (fuelNeed h) (fuelNeedArr (.cons h2 t2)) from rfl]
    rw [show prettyItems d (.cons h (.cons h2 t2))
        = indentChars d ++ prettyVal d h ++ ',' :: '\n' :: prettyItems d (.cons h2 t2)
      from rfl]
    simp only [List.length_append, List.length_cons]
    omega
termination_by a _ => sizeOf a

/-- The fuel needed to parse the field list is at most its length plus one. -/
theorem fuelNeedObj_le_len : ∀ (k : List Char) (v : JsonValue) (t : JsonObj) (d : Nat),
    fuelNeedObj (.cons k v t) ≤ (prettyFields d (.cons k v t)).length + 1
  | k, v, .nil, d => by
    have hv := fuelNeed_le_len v d
    simp only [fuelNeedObj, fuelNeedObj.eq_1, prettyFields, List.length_append,
      List.length_cons]
    omega
  | k, v, .cons k2 v2 t2, d => by
    have hv := fuelNeed_le_len v d
    have ht := fuelNeedObj_le_len k2 v2 t2 d
    rw [show fuelNeedObj (.cons k v (.cons k2 v2 t2))
        = 1 + max (fuelNeed v) (fuelNeedObj (.cons k2 v2 t2)) from rfl]
    rw [show prettyFields d (.cons k v (.cons k2 v2 t2))
        = indentChars d ++ '"' :: (escapeString k ++ '"' :: ':' :: ' ' :: prettyVal d v)
          ++ ',' :: '\n' :: prettyFields d (.cons k2 v2 t2) from rfl]
    simp only [List.length_append, List.length_cons]
    omega
termination_by _ v t _ => sizeOf v + sizeOf t

end

/-- Top-level round-trip of the modelled JSON collaborator: parsing the
pretty-printed form of a well-formed value returns exactly that value. -/
theorem jsonParse_pretty (v : JsonValue) (h : wfVal v = true) :
    jsonParse (prettyVal 0 v) = .ok v := by
  have hfuel : fuelNeed v ≤ (prettyVal 0 v).length + 1 :=
    le_trans (fuelNeed_le_len v 0) (by omega)
  have hparse : parseValue ((prettyVal 0 v).length + 1) (prettyVal 0 v) = some (v, []) := by
    have := parse_pretty_val v 0 [] [] ((prettyVal 0 v).length + 1) h
      (by intro c hc; simp at hc) hfuel trivial
    simpa using this
  rw [jsonParse, hparse]
  rfl

/-!
## UTF-8 round-trip
-/

theorem utf8DecodeOne_two (b1 b2 : Nat) (rest : List Nat)
    (hlo : 0xc2 ≤ b1) (hhi : b1 < 0xe0) (hcont : isCont b2 = true) :
    utf8DecodeOne (b1 :: (b2 :: rest))
      = some ((b1 - 0xc0) * 64 + (b2 - 0x80), rest) := by
  rw [utf8DecodeOne.eq_def]
  simp only [if_neg (by omega : ¬ b1 < 0x80), if_neg (by omega : ¬ b1 < 0xc2),
    if_pos hhi, if_pos hcont]

theorem utf8DecodeOne_three (b1 b2 b3 : Nat) (rest : List Nat)
    (hlo : 0xe0 ≤ b1) (hhi : b1 < 0xf0) (h2 : utf8Byte2Ok b1 b2 = true)
    (h3 : isCont b3 = true) :
    utf8DecodeOne (b1 :: (b2 :: (b3 :: rest)))
      = some (((b1 - 0xe0) * 64 + (b2 - 0x80)) * 64 + (b3 - 0x80), rest) := by
  rw [utf8DecodeOne.eq_def]
  simp only [if_neg (by omega : ¬ b1 < 0x80), if_neg (by omega : ¬ b1 < 0xc2),
    if_neg (by omega : ¬ b1 < 0xe0), if_pos hhi, h2, h3, Bool.and_self, if_pos rfl]
  exact if_pos trivial

theorem utf8DecodeOne_four (b1 b2 b3 b4 : Nat) (rest : List Nat)
    (hlo : 0xf0 ≤ b1) (hhi : b1 < 0xf5) (h2 : utf8Byte2Ok b1 b2 = true)
    (h3 : isCont b3 = true) (h4 : isCont b4 = true) :
    utf8DecodeOne (b1 :: (b2 :: (b3 :: (b4 :: rest))))
      = some ((((b1 - 0xf0) * 64 + (b2 - 0x80)) * 64 + (b3 - 0x80)) * 64 + (b4 - 0x80),
          rest) := by
  rw [utf8DecodeOne.eq_def]
  simp only [if_neg (by omega : ¬ b1 < 0x80), if_neg (by omega : ¬ b1 < 0xc2),
    if_neg (by omega : ¬ b1 < 0xe0), if_neg (by omega : ¬ b1 < 0xf0), if_pos hhi,
    h2, h3, h4, Bool.and_self, if_pos rfl]
  exact if_pos trivial

/-- Decoding one sequence off an encoded character recovers its scalar value. -/
theorem utf8DecodeOne_encode (c : Char) (bs : List Nat) :
    utf8DecodeOne (utf8EncodeChar c ++ bs) = some (c.toNat, bs) := by
  have hval := char_valid_ranges c
  have hmax : c.toNat < 0x110000 := by
    rcases hval with h | ⟨_, h⟩
    · omega
    · exact h
  by_cases h1 : c.toNat < 0x80
  · have henc : utf8EncodeChar c = [c.toNat] := by
      simp only [utf8EncodeChar]
      rw [if_pos h1]
    rw [henc]
    simp only [List.cons_append, List.nil_append, utf8DecodeOne]
    rw [if_pos h1]
  · by_cases h2 : c.toNat < 0x800
    · have henc : utf8EncodeChar c = [0xc0 + c.toNat / 64, 0x80 + c.toNat % 64] := by
        simp only [utf8EncodeChar]
        rw [if_neg h1, if_pos h2]
      rw [henc]
      simp only [List.cons_append, List.nil_append]
      rw [utf8DecodeOne_two _ _ _ (by omega) (by omega)
        (by simp only [isCont, decide_eq_true_eq]; omega)]
      rw [show (0xc0 + c.toNat / 64 - 0xc0) * 64 + (0x80 + c.toNat % 64 - 0x80)
          = c.toNat by omega]
    · by_cases h3 : c.toNat < 0x10000
      · have henc : utf8EncodeChar c
            = [0xe0 + c.toNat / 4096, 0x80 + c.toNat / 64 % 64, 0x80 + c.toNat % 64] := by
          simp only [utf8EncodeChar]
          rw [if_neg h1, if_neg h2, if_pos h3]
        have hok : utf8Byte2Ok (0xe0 + c.toNat / 4096) (0x80 + c.toNat / 64 % 64) = true := by
          rw [utf8Byte2Ok]
          by_cases he0 : 0xe0 + c.toNat / 4096 = 0xe0
          · rw [if_pos he0]
            simp only [decide_eq_true_eq]
            omega
          · rw [if_neg he0]
            by_cases hed : 0xe0 + c.toNat / 4096 = 0xed
            · rw [if_pos hed]
              simp only [decide_eq_true_eq]
              rcases hval with hlt | ⟨hgt, _⟩
              · omega
              · omega
            · rw [if_neg hed, if_neg (by omega), if_neg (by omega)]
              simp only [isCont, decide_eq_true_eq]
              omega
        rw [henc]
        simp only [List.cons_append, List.nil_append]
        rw [utf8DecodeOne_three _ _ _ _ (by omega) (by omega) hok
          (by simp only [isCont, decide_eq_true_eq]; omega)]
        rw [show ((0xe0 + c.toNat / 4096 - 0xe0) * 64 + (0x80 + c.toNat / 64 % 64 - 0x80)) * 64
            + (0x80 + c.toNat % 64 - 0x80) = c.toNat by omega]
      · have henc : utf8EncodeChar c
            = [0xf0 + c.toNat / 262144, 0x80 + c.toNat / 4096 % 64,
               0x80 + c.toNat / 64 % 64, 0x80 + c.toNat % 64] := by
          simp only [utf8EncodeChar]
          rw [if_neg h1, if_neg h2, if_neg h3]
        have hok : utf8Byte2Ok (0xf0 + c.toNat / 262144) (0x80 + c.toNat / 4096 % 64)
            = true := by
          rw [utf8Byte2Ok]
          rw [if_neg (by omega), if_neg (by omega)]
          by_cases hf0 : 0xf0 + c.toNat / 262144 = 0xf0
          · rw [if_pos hf0]
            simp only [decide_eq_true_eq]
            omega
          · rw [if_neg hf0]
            by_cases hf4 : 0xf0 + c.toNat / 262144 = 0xf4
            · rw [if_pos hf4]
              simp only [decide_eq_true_eq]
              omega
            · rw [if_neg hf4]
              simp only [isCont, decide_eq_true_eq]
              omega
        rw [henc]
        simp only [List.cons_append, List.nil_append]
        rw [utf8DecodeOne_four _ _ _ _ _ (by omega) (by omega) hok
          (by simp only [isCont, decide_eq_true_eq]; omega)
          (by simp only [isCont, decide_eq_true_eq]; omega)]
        rw [show (((0xf0 + c.toNat / 262144 - 0xf0) * 64 + (0x80 + c.toNat / 4096 % 64 - 0x80))
              * 64 + (0x80 + c.toNat / 64 % 64 - 0x80)) * 64 + (0x80 + c.toNat % 64 - 0x80)
            = c.toNat by omega]

theorem utf8EncodeChar_ne_nil (c : Char) : utf8EncodeChar c ≠ [] := by
  simp only [utf8EncodeChar]
  split
  · simp
  · split
    · simp
    · split <;> simp

theorem utf8DecodeLoop_encode : ∀ (s : List Char) (fuel : Nat),
    (utf8Encode s).length ≤ fuel → utf8DecodeLoop fuel (utf8Encode s) = some s
  | [], 0, _ => rfl
  | [], _ + 1, _ => rfl
  | c :: r, fuel, hfuel => by
    obtain ⟨b, bs, hb⟩ := List.exists_cons_of_ne_nil (utf8EncodeChar_ne_nil c)
    have hlen1 : 1 ≤ (utf8EncodeChar c).length := by
      rw [hb]
      simp
    have hlen : (utf8Encode (c :: r)).length
        = (utf8EncodeChar c).length + (utf8Encode r).length := by
      rw [show utf8Encode (c :: r) = utf8EncodeChar c ++ utf8Encode r from rfl]
      simp
    cases fuel with
    | zero =>
      exfalso
      rw [hlen] at hfuel
      omega
    | succ f =>
      have hsplit : utf8Encode (c :: r) = b :: (bs ++ utf8Encode r) := by
        rw [show utf8Encode (c :: r) = utf8EncodeChar c ++ utf8Encode r from rfl, hb]
        rfl
      rw [hsplit]
      simp only [utf8DecodeLoop]
      have hone : utf8DecodeOne (b :: (bs ++ utf8Encode r)) = some (c.toNat, utf8Encode r) := by
        rw [show b :: (bs ++ utf8Encode r) = (b :: bs) ++ utf8Encode r from rfl, ← hb]
        exact utf8DecodeOne_encode c (utf8Encode r)
      rw [hone]
      have hrec : utf8DecodeLoop f (utf8Encode r) = some r := by
        apply utf8DecodeLoop_encode r f
        rw [hlen, hb] at hfuel
        simp at hfuel
        omega
      simp [hrec, Char.ofNat_toNat]

theorem utf8Decode_encode (s : List Char) : utf8Decode (utf8Encode s) = some s := by
  rw [utf8Decode]
  exact utf8DecodeLoop_encode s (utf8Encode s).length (le_refl _)

/-!
## json() case lemmas
-/

theorem json_of_body_none (hs : HeaderMap) :
    (HttpMessage.mk hs .none).json = .error ⟨"Empty body"⟩ := rfl

theorem json_of_body_multi (hs : HeaderMap) :
    (HttpMessage.mk hs .multiPart).json = .error ⟨"Empty body"⟩ := rfl

theorem json_single_utf8_err (hs : HeaderMap) (bytes : List Nat)
    (h : utf8Decode bytes = Option.none) :
    (HttpMessage.mk hs (.single bytes)).json = .error ⟨utf8ErrorMessage⟩ := by
  simp only [HttpMessage.json, h]

theorem json_single_parse_ok (hs : HeaderMap) (bytes : List Nat) (chars : List Char)
    (v : JsonValue) (h1 : utf8Decode bytes = some chars) (h2 : jsonParse chars = .ok v) :
    (HttpMessage.mk hs (.single bytes)).json = .ok v := by
  simp only [HttpMessage.json, h1, h2]

theorem json_single_parse_err (hs : HeaderMap) (bytes : List Nat) (chars : List Char)
    (e : String) (h1 : utf8Decode bytes = some chars) (h2 : jsonParse chars = .error e) :
    (HttpMessage.mk hs (.single bytes)).json = .error ⟨e⟩ := by
  simp only [HttpMessage.json, h1, h2]

/-!
## Claim C4: json() failure conditions
-/

/-- C4 counterexample: on a message with no body, `json()` does fail with an
`InvalidData` error, but its message is "Empty body" (src/lib.rs line 358),
not the "empty body" stated by the claim. -/
theorem json_empty_body_message :
    HttpMessage.new.json = .error ⟨"Empty body"⟩ ∧ "Empty body" ≠ "empty body" :=
  ⟨rfl, by decide⟩

/-- C4 amended: `json()` succeeds iff the body is `Single`, the bytes decode
as UTF-8 and the text parses as JSON; a non-`Single` body gives the message
"Empty body" (capital E); a UTF-8 failure and a parse failure give the
wrapped decode errors; on success it returns the parsed value; the result
never depends on the headers (so `Content-Type` is not inspected), and the
delegating `Request::json` / `Response::json` agree with the embedded
message; the model being a total function is the no-panic guarantee. -/
theorem json_spec (m : HttpMessage) :
    ((∃ v, m.json = .ok v) ↔
      (∃ bytes chars v, m.body = .single bytes ∧ utf8Decode bytes = some chars ∧
        jsonParse chars = .ok v))
    ∧ (m.body.is_single = false → m.json = .error ⟨"Empty body"⟩)
    ∧ (∀ bytes, m.body = .single bytes → utf8Decode bytes = Option.none →
        m.json = .error ⟨utf8ErrorMessage⟩)
    ∧ (∀ bytes chars e, m.body = .single bytes → utf8Decode bytes = some chars →
        jsonParse chars = .error e → m.json = .error ⟨e⟩)
    ∧ (∀ bytes chars v, m.body = .single bytes → utf8Decode bytes = some chars →
        jsonParse chars = .ok v → m.json = .ok v)
    ∧ (∀ hs, (HttpMessage.mk hs m.body).json = m.json)
    ∧ (∀ r : Request, r.base = m → r.json = m.json)
    ∧ (∀ r : Response, r.base = m → r.json = m.json) := by
  obtain ⟨hs, body⟩ := m
  refine ⟨?_, ?_, ?_, ?_, ?_, fun _ => rfl,
    fun r hr => by rw [Request.json, hr], fun r hr => by rw [Response.json, hr]⟩
  · cases body with
    | none =>
      constructor
      · rintro ⟨v, hv⟩
        rw [json_of_body_none] at hv
        cases hv
      · rintro ⟨bytes, _, _, hbytes, _⟩
        cases hbytes
    | multiPart =>
      constructor
      · rintro ⟨v, hv⟩
        rw [json_of_body_multi] at hv
        cases hv
      · rintro ⟨bytes, _, _, hbytes, _⟩
        cases hbytes
    | single bytes =>
      constructor
      · rintro ⟨v, hv⟩
        rcases hdec : utf8Decode bytes with _ | chars
        · rw [json_single_utf8_err hs bytes hdec] at hv
          cases hv
        · rcases hparse : jsonParse chars with e | v2
          · rw [json_single_parse_err hs bytes chars e hdec hparse] at hv
            cases hv
          · rw [json_single_parse_ok hs bytes chars v2 hdec hparse] at hv
            exact ⟨bytes, chars, v2, rfl, hdec, hparse⟩
      · rintro ⟨bytes2, chars, v, hbytes, hdec, hparse⟩
        cases hbytes
        exact ⟨v, json_single_parse_ok hs _ chars v hdec hparse⟩
  · intro hns
    cases body with
    | none => exact json_of_body_none hs
    | multiPart => exact json_of_body_multi hs
    | single bytes => cases hns
  · intro bytes hb hdec
    cases hb
    exact json_single_utf8_err hs bytes hdec
  · intro bytes chars e hb hdec hparse
    cases hb
    exact json_single_parse_err hs bytes chars e hdec hparse
  · intro bytes chars v hb hdec hparse
    cases hb
    exact json_single_parse_ok hs bytes chars v hdec hparse

/-- C4 witness: the empty-body failure at a concrete message, via the spec
theorem. -/
theorem json_spec_witness :
    HttpMessage.new.json = .error ⟨"Empty body"⟩ :=
  (json_spec HttpMessage.new).2.1 rfl

/-!
## Claim C5: set_json / json round-trip
-/

/-- C5: for every message and every well-formed JSON value (the values
reachable through the collaborator's API: all object keys distinct),
`set_json` then `json` returns the same value; immediately after `set_json`
the `Content-Type` header equals `application/json` whatever it was before,
and the body is the single buffer holding the UTF-8 bytes of the 4-space
pretty printing. -/
theorem set_json_roundtrip (m : HttpMessage) (v : JsonValue) (h : wfVal v = true) :
    (m.set_json v).json = .ok v
    ∧ (m.set_json v).headers.get CONTENT_TYPE = some APPLICATION_JSON
    ∧ (m.set_json v).body = .single (utf8Encode (prettyVal 0 v)) := by
  refine ⟨?_, ?_, rfl⟩
  · have hshape : m.set_json v
        = HttpMessage.mk ((m.headers.insert CONTENT_TYPE APPLICATION_JSON).1)
            (.single (utf8Encode (prettyVal 0 v))) := rfl
    rw [hshape,
      json_single_parse_ok _ _ (prettyVal 0 v) v (utf8Decode_encode (prettyVal 0 v))
        (jsonParse_pretty v h)]
  · show ((m.headers.insert CONTENT_TYPE APPLICATION_JSON).1).get CONTENT_TYPE
        = some APPLICATION_JSON
    rw [HeaderMap.get_insert, if_pos rfl]

/-- C5 witness: the round-trip at a concrete message and value. -/
theorem set_json_roundtrip_witness :
    (HttpMessage.new.set_json
        (.obj (.cons ['n', 'a', 'm', 'e'] (.str ['J', 'o', 'h', 'n']) .nil))).json
      = .ok (.obj (.cons ['n', 'a', 'm', 'e'] (.str ['J', 'o', 'h', 'n']) .nil)) :=
  (set_json_roundtrip HttpMessage.new
    (.obj (.cons ['n', 'a', 'm', 'e'] (.str ['J', 'o', 'h', 'n']) .nil)) (by decide)).1

end Wrequest
